import Mathlib

/-!
Verification of the core of the Splashin receipt generator (`src/webapp.py`).

The embedding models Python strings as `List Char` (ASCII model: the
whitespace classes of `str.strip`, regex `\s` and `textwrap` are taken to be
the six ASCII whitespace characters, and `\w` / `\d` are the ASCII word and
digit classes).  The two core functions are

  * `parse_consolidated_line` (webapp.py lines 92-120), which splits a pasted
    dump into lines and turns each non-blank line into a row dictionary using
    the regex search for the anchored pattern of a non-greedy name capture,
    a whitespace run, a token of the letter R followed by digits, a
    whitespace run, and the rest of the line; and

  * `create_receipt_image` (webapp.py lines 33-90), which draws fixed fields
    and either a parenthesized breakdown (via a greedy group-group regex and
    a findall of the pattern: letter R, digits, whitespace, non-R characters)
    or a 45-column `textwrap.wrap` of the reason.

Drawing is modelled as the list of `draw.text` calls (`DrawOp`); the PIL
image mutation discipline (`template_img.copy()`) is modelled by an explicit
heap of images in the final section.  `datetime.now().strftime` is modelled
by a `today` parameter.
-/

/-- Python strings are modelled as lists of characters. -/
abbrev Str := List Char

/-- The ASCII whitespace class of Python (`str.strip` and regex spaces):
space, tab, newline, carriage return, vertical tab, form feed. -/
def isPySpace (c : Char) : Bool :=
  c = ' ' || c = '\t' || c = '\n' || c = '\r' || c = '\x0b' || c = '\x0c'

/-- Python `str.strip()`: removes leading and trailing whitespace. -/
def pyStrip (s : Str) : Str :=
  ((s.dropWhile isPySpace).reverse.dropWhile isPySpace).reverse

/-- Python `str.split(chr(10))`: split on every newline, keeping empty parts
(the empty string splits to one empty part). -/
def splitNl : Str → List Str
  | [] => [[]]
  | c :: t =>
    if c = '\n' then [] :: splitNl t
    else
      match splitNl t with
      | [] => [[c]]
      | h :: r => (c :: h) :: r

/-- Python `str.upper()` (ASCII model). -/
def pyUpper (s : Str) : Str := s.map Char.toUpper

/-- A row dictionary, as built by the parser and consumed by the renderer:
an association list from keys to string values (Python `dict` with
`.get`-style access; all values that occur are strings). -/
abbrev RecordMap := List (String × Str)

/-- Python `data.get(key, default)` followed by `str(...)`. -/
def getStr (data : RecordMap) (key : String) (dflt : Str) : Str :=
  (data.lookup key).getD dflt

/- ### The parser regex (webapp.py line 100)

`re.search` of the anchored pattern: a non-greedy dot-star name group, one or
more whitespace, the letter R and one or more digits (the amount group), one
or more whitespace, then a greedy dot-star group to the end. -/

/-- Matches the tail of the parser pattern after the name capture: one or
more whitespace characters, then the letter R followed by one or more
digits, then one or more whitespace characters, then the rest (which
becomes the reason group).  Returns the amount capture and that rest.
The whitespace run before R must run right up to the R, the digit run is
maximal, and the second whitespace run is maximal (greedy with no viable
backtracking, as in the Python engine). -/
def matchTail (cs : Str) : Option (Str × Str) :=
  let p1 := cs.span isPySpace
  if p1.1.isEmpty then none
  else
    match p1.2 with
    | 'R' :: cs2 =>
      let p2 := cs2.span Char.isDigit
      if p2.1.isEmpty then none
      else
        let p3 := p2.2.span isPySpace
        if p3.1.isEmpty then none
        else some ('R' :: p2.1, p3.2)
    | _ => none

/-- The full search for the parser pattern at the earliest split point (the
name capture is non-greedy).  The dot of the name group and of the reason
group does not match a newline, and the final anchor accepts a single
trailing newline; whitespace runs may contain newlines. -/
def searchLine : Str → Option (Str × Str × Str)
  | [] => none
  | c :: t =>
    match matchTail (c :: t) with
    | some (a, r) =>
      if r.contains '\n' then
        if r.dropLast.contains '\n' = false ∧ r.getLast? = some '\n' then
          some ([], a, r.dropLast)
        else if c = '\n' then none
        else (searchLine t).map fun p => (c :: p.1, p.2.1, p.2.2)
      else some ([], a, r)
    | none =>
      if c = '\n' then none
      else (searchLine t).map fun p => (c :: p.1, p.2.1, p.2.2)

/-- One iteration of the parser loop (webapp.py lines 100-119): search the
stripped line for the pattern; on a match build the row from the trimmed
captures, otherwise build the fallback row from the raw line. -/
def parseLineRow (today line : Str) : RecordMap :=
  match searchLine (pyStrip line) with
  | some (n, a, r) =>
    [("rn", []), ("date", today), ("name", pyStrip n),
     ("amount", pyStrip a), ("reason", pyStrip r), ("type", "EFT".data)]
  | none =>
    [("rn", []), ("date", today), ("name", line.take 20 ++ "...".data),
     ("amount", []), ("reason", line), ("type", "EFT".data)]

/-- The parser loop over the split lines, skipping lines that are blank
after stripping (webapp.py lines 97-119). -/
def parseLines (today : Str) : List Str → List RecordMap
  | [] => []
  | l :: ls =>
    if (pyStrip l).isEmpty then parseLines today ls
    else parseLineRow today l :: parseLines today ls

/-- `parse_consolidated_line` (webapp.py lines 92-120): strip the dump,
split it on newlines, and run the per-line loop.  `today` stands for
`datetime.datetime.now().strftime` with a fixed format, assumed constant
over the call. -/
def parse_consolidated_line (today text_dump : Str) : List RecordMap :=
  parseLines today (splitNl (pyStrip text_dump))

/- ### The renderer's breakdown regex (webapp.py line 66)

`re.search` of: greedy dot-star group, a literal open parenthesis, greedy
dot-star group, a literal close parenthesis.  The dot does not match a
newline, so the match happens inside the first newline-separated segment
that contains an open parenthesis followed by a close parenthesis; in that
segment the close parenthesis matched is the segment's last one and the
open parenthesis matched is the last one before it. -/

/-- Index of the last occurrence of a character, if any. -/
def lastIdxOf (c : Char) : Str → Option Nat
  | [] => none
  | a :: t =>
    match lastIdxOf c t with
    | some j => some (j + 1)
    | none => if a = c then some 0 else none

/-- The breakdown regex restricted to one newline-free segment. -/
def segMatch (seg : Str) : Option (Str × Str) :=
  match lastIdxOf ')' seg with
  | none => none
  | some j =>
    match lastIdxOf '(' (seg.take j) with
    | none => none
    | some i => some (seg.take i, (seg.take j).drop (i + 1))

/-- First successful result in a list of attempts. -/
def firstSome : List (Option α) → Option α
  | [] => none
  | o :: t =>
    match o with
    | some x => some x
    | none => firstSome t

/-- The breakdown regex on the full reason string: the first segment (in
order) with a match supplies the two captures. -/
def reasonMatch (s : Str) : Option (Str × Str) :=
  firstSome ((splitNl s).map segMatch)

/- ### The item findall (webapp.py line 77)

`re.findall` of: the letter R, one or more digits, one or more whitespace
characters, one or more characters other than the letter R.  The digit run
is maximal; the whitespace run is maximal unless the non-R run would be
empty, in which case the last whitespace character stands in for it
(requiring at least two whitespace characters). -/

/-- Attempt to match one item right after a letter R; returns the matched
item and the rest of the string. -/
def tryItem (cs : Str) : Option (Str × Str) :=
  let p1 := cs.span Char.isDigit
  if p1.1.isEmpty then none
  else
    let p2 := p1.2.span isPySpace
    if p2.1.isEmpty then none
    else
      let p3 := p2.2.span (fun c => c != 'R')
      if p3.1.isEmpty then
        if 2 ≤ p2.1.length then some ('R' :: p1.1 ++ p2.1, p2.2) else none
      else some ('R' :: p1.1 ++ p2.1 ++ p3.1, p3.2)

/-- The findall scan: try a match at each position, left to right, resuming
after each match (fuelled; the initial length is always enough fuel). -/
def findItemsAux : Nat → Str → List Str
  | 0, _ => []
  | _ + 1, [] => []
  | fuel + 1, c :: cs =>
    if c = 'R' then
      match tryItem cs with
      | some (item, rest) => item :: findItemsAux fuel rest
      | none => findItemsAux fuel cs
    else findItemsAux fuel cs

/-- `re.findall` for the item pattern. -/
def re_findall_items (s : Str) : List Str := findItemsAux s.length s

/-- Python `str.startswith` for the single letter R. -/
def startsWithR : Str → Bool
  | 'R' :: _ => true
  | _ => false

/-- The argument passed to the findall (webapp.py line 77): the breakdown
text, with a letter R prepended when the stripped text does not already
start with one. -/
def breakdownItemsInput (breakdown_text : Str) : Str :=
  if startsWithR (pyStrip breakdown_text) then breakdown_text else 'R' :: breakdown_text

/- ### `textwrap.wrap(raw_reason, width=45)` (webapp.py line 86)

Model of the CPython `TextWrapper` with the default settings used by
`textwrap.wrap`: `expand_tabs`, `replace_whitespace`, `drop_whitespace`,
`break_long_words` and `break_on_hyphens` all on, no indents, no
`max_lines`, no sentence-ending fixup. -/

/-- Python `str.expandtabs(tabsize)`: replace each tab with spaces up to the
next multiple of the tab size, resetting the column on newline and carriage
return. -/
def expandtabsAux (tabsize : Nat) : Nat → Str → Str
  | _, [] => []
  | col, c :: t =>
    if c = '\t' then
      let pad := tabsize - col % tabsize
      List.replicate pad ' ' ++ expandtabsAux tabsize (col + pad) t
    else if c = '\n' || c = '\r' then c :: expandtabsAux tabsize 0 t
    else c :: expandtabsAux tabsize (col + 1) t

/-- `TextWrapper._munge_whitespace`: expand tabs, then replace each
whitespace character with a single space. -/
def munge_whitespace (s : Str) : Str :=
  (expandtabsAux 8 0 s).map fun c => if isPySpace c then ' ' else c

/-- The ASCII word-character class of the wrapper's chunking regex. -/
def isWordC (c : Char) : Bool := c.isAlphanum || c = '_'

/-- The class of a word character that is not a digit. -/
def isLetterW (c : Char) : Bool := isWordC c && !c.isDigit

/-- Characters allowed right before an em-dash in the chunking regex. -/
def isEmPrev (c : Char) : Bool :=
  isWordC c || c = '!' || c = '"' || c = '\'' || c = '&' || c = '.' || c = ',' || c = '?'

/-- The look-behind of the hyphenated-word rule, applied to the reversed
stream of characters before the hyphen: either two non-digit word
characters, or letter-hyphen-letter, immediately precede it. -/
def lbOk (before : Str) : Bool :=
  (match before with
   | b0 :: b1 :: _ => isLetterW b0 && isLetterW b1
   | _ => false) ||
  (match before with
   | b0 :: b1 :: b2 :: _ => isLetterW b0 && b1 = '-' && isLetterW b2
   | _ => false)

/-- The look-ahead of the hyphenated-word rule: a non-digit word character,
an optional hyphen, and a non-digit word character follow. -/
def laOk (rt : Str) : Bool :=
  match rt with
  | r0 :: rrest =>
    isLetterW r0 &&
      (match rrest with
       | r1 :: rrest2 =>
         isLetterW r1 ||
           (r1 = '-' && (match rrest2 with | r2 :: _ => isLetterW r2 | [] => false))
       | [] => false)
  | [] => false

/-- The em-dash look-ahead: a run of at least two hyphens followed by a word
character starts here. -/
def emDashAhead (rest : Str) : Bool :=
  let p := rest.span (fun c => c = '-')
  2 ≤ p.1.length && (match p.2 with | w :: _ => isWordC w | [] => false)

/-- The lazy word scan of the chunking regex: starting from a nonempty
reversed accumulator, extend one non-space character at a time until the
first terminator fires, in the regex's alternation order: hyphenated-word
break (consuming the hyphen), end of word (before whitespace or at the
end), or em-dash boundary.  `revPrev` is the reversed text before the
chunk, used by look-behinds. -/
def wordScan (revPrev : Str) : Str → Str → Str × Str
  | acc, [] => (acc.reverse, [])
  | acc, r :: rt =>
    if r = '-' && lbOk (acc ++ revPrev) && laOk rt then
      (('-' :: acc).reverse, rt)
    else if isPySpace r then (acc.reverse, r :: rt)
    else if (match acc with | a :: _ => isEmPrev a | [] => false) && emDashAhead (r :: rt) then
      (acc.reverse, r :: rt)
    else wordScan revPrev (r :: acc) rt

/-- The chunking loop of `TextWrapper._split`: at each position emit a
whitespace run, an em-dash run (a run of at least two hyphens between a
suitable character and a word character), or a lazily scanned word chunk
(fuelled; one unit per chunk, so the initial length always suffices). -/
def wordsepAux : Nat → Str → Str → List Str
  | 0, _, _ => []
  | fuel + 1, revPrev, rest =>
    match rest with
    | [] => []
    | c :: t =>
      if isPySpace c then
        let p := (c :: t).span isPySpace
        p.1 :: wordsepAux fuel (p.1.reverse ++ revPrev) p.2
      else if (match revPrev with | a :: _ => isEmPrev a | [] => false) &&
          emDashAhead (c :: t) then
        let p := (c :: t).span (fun x => x = '-')
        p.1 :: wordsepAux fuel (p.1.reverse ++ revPrev) p.2
      else
        let p := wordScan revPrev [c] t
        p.1 :: wordsepAux fuel (p.1.reverse ++ revPrev) p.2

/-- `TextWrapper._split`: the chunk list of a munged text. -/
def wordsep_split (s : Str) : List Str := wordsepAux s.length [] s

/-- Whether a chunk strips to the empty string (Python chunk.strip() being
falsy). -/
def stripEmpty (s : Str) : Bool := (pyStrip s).isEmpty

/-- `str.rfind` of a hyphen within the first `stop` characters. -/
def rfindDashBefore (chunk : Str) (stop : Nat) : Option Nat :=
  lastIdxOf '-' (chunk.take stop)

/-- `TextWrapper._handle_long_word` with `break_long_words` on and
`break_on_hyphens` on: cut the head chunk at the space left on the line,
or just after the last hyphen before that point when the cut piece would
have a non-hyphen character before that hyphen.  Returns the new chunk
list and the new current line. -/
def handle_long_word (chunks cur_line : List Str) (cur_len width : Nat) :
    List Str × List Str :=
  let space_left := if width < 1 then 1 else width - cur_len
  match chunks with
  | [] => ([], cur_line)
  | chunk :: rest =>
    let e :=
      if space_left < chunk.length then
        match rfindDashBefore chunk space_left with
        | some hy =>
          if 0 < hy && (chunk.take hy).any (fun c => c != '-') then hy + 1 else space_left
        | none => space_left
      else space_left
    (chunk.drop e :: rest, cur_line ++ [chunk.take e])

/-- The inner greedy loop of `TextWrapper._wrap_chunks`: take chunks while
they fit in the width.  Returns the taken chunks, the resulting length,
and the remaining chunks. -/
def greedyTake (width : Nat) : Nat → List Str → List Str × Nat × List Str
  | cur_len, [] => ([], cur_len, [])
  | cur_len, c :: rest =>
    if cur_len + c.length ≤ width then
      let p := greedyTake width (cur_len + c.length) rest
      (c :: p.1, p.2.1, p.2.2)
    else ([], cur_len, c :: rest)

/-- One pass of the outer loop of `TextWrapper._wrap_chunks`: drop a leading
whitespace chunk (only once at least one line exists), greedily fill the
line, break a long head chunk, drop a trailing whitespace piece, and emit
the line if nonempty. -/
def wrapPass (width : Nat) (hasLines : Bool) (chunks : List Str) :
    Option Str × List Str :=
  let chunks1 :=
    match chunks with
    | c :: t => if stripEmpty c && hasLines then t else chunks
    | [] => chunks
  let g := greedyTake width 0 chunks1
  let hl :=
    match g.2.2 with
    | c :: _ =>
      if width < c.length then handle_long_word g.2.2 g.1 g.2.1 width else (g.2.2, g.1)
    | [] => (g.2.2, g.1)
  let cur2 :=
    match hl.2.getLast? with
    | some lc => if stripEmpty lc then hl.2.dropLast else hl.2
    | none => hl.2
  (if cur2.isEmpty then none else some cur2.flatten, hl.1)

/-- The outer loop of `TextWrapper._wrap_chunks` (fuelled; every pass on a
nonempty chunk list strictly reduces total length plus chunk count, so the
fuel used below always suffices). -/
def wrapLoop (width : Nat) : Nat → Bool → List Str → List Str
  | 0, _, _ => []
  | fuel + 1, hasLines, chunks =>
    match chunks with
    | [] => []
    | _ :: _ =>
      let p := wrapPass width hasLines chunks
      match p.1 with
      | some l => l :: wrapLoop width fuel true p.2
      | none => wrapLoop width fuel hasLines p.2

/-- The total character count of a chunk list. -/
def totalLen (chunks : List Str) : Nat := (chunks.map List.length).sum

/-- `textwrap.wrap(text, width)` with the default wrapper settings. -/
def textwrap_wrap (width : Nat) (text : Str) : List Str :=
  let chunks := wordsep_split (munge_whitespace text)
  wrapLoop width (totalLen chunks + chunks.length + 1) false chunks

/- ### The renderer (webapp.py lines 33-90) -/

/-- A PIL font handle as loaded by `get_fonts`. -/
inductive PILFont where
  | truetype (name : String) (size : Nat)
  | dflt
  deriving DecidableEq, Repr

/-- `get_fonts` (webapp.py lines 24-31): the body font and the checkbox
font, falling back to the built-in default when the scalable font is
unavailable.  The availability flag models the `IOError` branch. -/
def get_fonts (arialAvailable : Bool) : PILFont × PILFont :=
  if arialAvailable then (.truetype "arial.ttf" 18, .truetype "arial.ttf" 22)
  else (.dflt, .dflt)

/-- One `draw.text` call: anchor position, text, fill color, font. -/
structure DrawOp where
  pos : Nat × Nat
  text : Str
  fill : Nat × Nat × Nat
  font : PILFont
  deriving DecidableEq, Repr

/-- The fill used by every call (webapp.py line 38). -/
def black : Nat × Nat × Nat := (0, 0, 0)

/-- The draw calls of the smart reason formatting (webapp.py lines 60-88):
on a breakdown match, the trimmed first capture at the reason anchor and
each trimmed item, prefixed by a dash and a space, one line further down
per item and indented by ten pixels; otherwise the 45-column wrapped lines
at successive line positions. -/
def reasonOps (font : PILFont) (raw_reason : Str) : List DrawOp :=
  match reasonMatch raw_reason with
  | some (g1, g2) =>
    let main_reason := pyStrip g1
    let breakdown_text := pyStrip g2
    let items := re_findall_items (breakdownItemsInput breakdown_text)
    { pos := (260, 355), text := main_reason, fill := black, font := font } ::
      (items.enum.map fun p =>
        { pos := (270, 375 + 20 * p.1), text := '-' :: ' ' :: pyStrip p.2,
          fill := black, font := font })
  | none =>
    (textwrap_wrap 45 raw_reason).enum.map fun p =>
      { pos := (260, 355 + p.1 * 20), text := p.2, fill := black, font := font }

/-- Python substring containment (the `in` operator on strings). -/
def isSubstringOf (needle : Str) : Str → Bool
  | [] => needle.isEmpty
  | c :: t => needle.isPrefixOf (c :: t) || isSubstringOf needle (t)

/-- The full sequence of `draw.text` calls of `create_receipt_image`
(webapp.py lines 33-90) on a row dictionary: the checkbox mark (CASH
position when the trimmed upper-cased type contains CASH, else the EFT
position), the receipt number, name, amount and date fields, then the
reason formatting. -/
def receipt_draw_ops (data : RecordMap) (arialAvailable : Bool) : List DrawOp :=
  let fonts := get_fonts arialAvailable
  let font := fonts.1
  let check_font := fonts.2
  let name := getStr data "name" []
  let amount := getStr data "amount" []
  let raw_reason := getStr data "reason" []
  let rn := getStr data "rn" []
  let date := getStr data "date" []
  let payment_type := pyUpper (pyStrip (getStr data "type" "EFT".data))
  (if isSubstringOf "CASH".data payment_type then
    [{ pos := (97, 172), text := "X".data, fill := black, font := check_font }]
  else
    [{ pos := (197, 172), text := "X".data, fill := black, font := check_font }]) ++
  [{ pos := (400, 185), text := rn, fill := black, font := font },
   { pos := (260, 225), text := name, fill := black, font := font },
   { pos := (260, 290), text := amount, fill := black, font := font },
   { pos := (400, 443), text := date, fill := black, font := font }] ++
  reasonOps font raw_reason

/- ### The image heap (for the copy discipline of webapp.py line 35)

A PIL image is its template pixel payload together with the draw calls
applied to it; a deterministic rasterizer makes the pixel content a
function of this state.  Python image objects are references, so the
renderer is modelled as a state transformer over an explicit heap of
images: it reads the template, allocates a copy, and mutates only the
copy. -/

/-- An image value: the pixel payload it was created from and the draw
calls applied to it since. -/
structure PILImage where
  base : List (List (Nat × Nat × Nat))
  ops : List DrawOp
  deriving DecidableEq, Repr

/-- A heap of image objects; references are indices. -/
structure Heap where
  cells : List PILImage
  deriving DecidableEq, Repr

/-- Dereference an image. -/
def Heap.read (h : Heap) (r : Nat) : Option PILImage := h.cells.get? r

/-- Allocate a new image (`template_img.copy()`). -/
def Heap.alloc (h : Heap) (img : PILImage) : Nat × Heap :=
  (h.cells.length, ⟨h.cells ++ [img]⟩)

/-- Apply one `draw.text` call to the image at a reference. -/
def Heap.draw (h : Heap) (r : Nat) (op : DrawOp) : Heap :=
  match h.cells.get? r with
  | some img => ⟨h.cells.set r { img with ops := img.ops ++ [op] }⟩
  | none => h

/-- `create_receipt_image` as a state transformer: copy the template, apply
every draw call to the copy, return the reference to the copy and the new
heap. -/
def create_receipt_image (data : RecordMap) (arialAvailable : Bool) (tmplRef : Nat)
    (h : Heap) : Nat × Heap :=
  let tmpl := (h.read tmplRef).getD ⟨[], []⟩
  let p := h.alloc tmpl
  (p.1, (receipt_draw_ops data arialAvailable).foldl (fun hh op => hh.draw p.1 op) p.2)

/- ### Definitions written from the specification's wording, for comparison
with the code-derived definitions above. -/

/-- Modelled from the spec: the characters up to (not including) the next
occurrence of the letter R followed by a digit, or the end of the string
(the item-tail extent described by the breakdown-extraction sentence). -/
def specC3Take : Str → Str
  | [] => []
  | [c] => [c]
  | c :: d :: t => if c = 'R' && d.isDigit then [] else c :: specC3Take (d :: t)

/-- Modelled from the spec: one breakdown item as the claim describes it,
right after a letter R: one or more digits, whitespace, then all
characters up to the next R-followed-by-digits or the end. -/
def specC3TryItem (cs : Str) : Option (Str × Str) :=
  let p1 := cs.span Char.isDigit
  if p1.1.isEmpty then none
  else
    let p2 := p1.2.span isPySpace
    if p2.1.isEmpty then none
    else
      let t := specC3Take p2.2
      some ('R' :: p1.1 ++ p2.1 ++ t, p2.2.drop t.length)

/-- Modelled from the spec: consecutive extraction of the items the claim
describes (fuelled scan, as for the findall). -/
def specC3ItemsAux : Nat → Str → List Str
  | 0, _ => []
  | _ + 1, [] => []
  | fuel + 1, c :: cs =>
    if c = 'R' then
      match specC3TryItem cs with
      | some (item, rest) => item :: specC3ItemsAux fuel rest
      | none => specC3ItemsAux fuel cs
    else specC3ItemsAux fuel cs

/-- Modelled from the spec: the breakdown items the claim describes. -/
def specC3Items (s : Str) : List Str := specC3ItemsAux s.length s

/-- Modelled from the spec: Python `str.split()` with no separator (split
on whitespace runs, dropping empty pieces), used to state the claim's
whitespace normalization. -/
def pySplitWhitespaceAux : Nat → Str → List Str
  | 0, _ => []
  | fuel + 1, s =>
    match s.dropWhile isPySpace with
    | [] => []
    | c :: t =>
      let p := (c :: t).span (fun x => !isPySpace x)
      p.1 :: pySplitWhitespaceAux fuel p.2

/-- Modelled from the spec: Python `str.split()` with no separator. -/
def pySplitWhitespace (s : Str) : List Str := pySplitWhitespaceAux s.length s

/-- Join strings with single spaces. -/
def joinSpace : List Str → Str
  | [] => []
  | [w] => w
  | w :: ws => w ++ ' ' :: joinSpace ws

/-- The whitespace normalization named by the wrap claim. -/
def normalizeWs (s : Str) : Str := joinSpace (pySplitWhitespace s)

/-- Whether a string contains the letter R immediately followed by a digit
(the only material an amount token can start from). -/
def hasRDigit : Str → Bool
  | c :: d :: t => (c = 'R' && d.isDigit) || hasRDigit (d :: t)
  | _ => false

/-- The chunk tail of a word list: a single-space chunk before each word
(the chunk list of a singly spaced word list is the first word followed by
this tail). -/
def pairChunks : List Str → List Str
  | [] => []
  | w :: rest => [' '] :: w :: pairChunks rest

/-- The chunk list of a singly spaced word list. -/
def interChunks : List Str → List Str
  | [] => []
  | w :: rest => w :: pairChunks rest

/-- A word the amended wrap claim quantifies over: nonempty, at most the
wrap width, and free of whitespace and hyphens. -/
def canonWord (w : Str) : Prop :=
  w ≠ [] ∧ w.length ≤ 45 ∧ ∀ c ∈ w, isPySpace c = false ∧ c ≠ '-'

/- ### Helper lemmas about the parser -/

theorem parseLines_eq (today : Str) (ls : List Str) :
    parseLines today ls =
      (ls.filter (fun l => !(pyStrip l).isEmpty)).map (parseLineRow today) := by
  induction ls with
  | nil => rfl
  | cons l ls ih =>
    cases h : (pyStrip l).isEmpty with
    | true => simp [parseLines, h, List.filter_cons, ih]
    | false => simp [parseLines, h, List.filter_cons, ih]

theorem matchTail_sound {cs a r : Str} (h : matchTail cs = some (a, r)) :
    ∃ w1 ds w2, cs = w1 ++ 'R' :: ds ++ w2 ++ r ∧ a = 'R' :: ds ∧
      w1 ≠ [] ∧ w1.all isPySpace ∧ ds ≠ [] ∧ ds.all Char.isDigit ∧
      w2 ≠ [] ∧ w2.all isPySpace := by
  simp only [matchTail, List.span_eq_take_drop] at h
  split at h
  · exact absurd h (by simp)
  · rename_i h1
    split at h
    · rename_i cs2 heq
      split at h
      · exact absurd h (by simp)
      · rename_i h2
        split at h
        · exact absurd h (by simp)
        · rename_i h3
          rw [Option.some_inj, Prod.mk.injEq] at h
          obtain ⟨ha, hr⟩ := h
          refine ⟨cs.takeWhile isPySpace, cs2.takeWhile Char.isDigit,
            (cs2.dropWhile Char.isDigit).takeWhile isPySpace, ?_, ha.symm,
            by simpa using h1,
            List.all_eq_true.2 fun x hx => List.mem_takeWhile_imp hx,
            by simpa using h2,
            List.all_eq_true.2 fun x hx => List.mem_takeWhile_imp hx,
            by simpa using h3,
            List.all_eq_true.2 fun x hx => List.mem_takeWhile_imp hx⟩
          conv_lhs => rw [← List.takeWhile_append_dropWhile (p := isPySpace) (l := cs)]
          conv_lhs => rw [heq]
          conv_lhs => rw [← List.takeWhile_append_dropWhile (p := Char.isDigit) (l := cs2)]
          conv_lhs =>
            rw [← List.takeWhile_append_dropWhile (p := isPySpace)
              (l := cs2.dropWhile Char.isDigit)]
          conv_lhs => rw [hr]
          simp
    · exact absurd h (by simp)

theorem searchLine_sound : ∀ {s n a r : Str}, searchLine s = some (n, a, r) →
    ∃ w1 ds w2 r0, s = n ++ w1 ++ 'R' :: ds ++ w2 ++ r0 ∧ a = 'R' :: ds ∧
      w1 ≠ [] ∧ w1.all isPySpace ∧ ds ≠ [] ∧ ds.all Char.isDigit ∧
      w2 ≠ [] ∧ w2.all isPySpace ∧ (r0 = r ∨ r0 = r ++ ['\n']) := by
  intro s
  induction s with
  | nil => intro n a r h; exact absurd h (by simp [searchLine])
  | cons c t ih =>
    intro n a r h
    rw [searchLine] at h
    split at h
    · rename_i a0 r0 hm
      split at h
      · split at h
        · rename_i hnl hcond
          simp only [Option.some_inj, Prod.mk.injEq] at h
          obtain ⟨hn, ha, hr⟩ := h
          obtain ⟨w1, ds, w2, hcs, ha0, hw1, hw1a, hds, hdsa, hw2, hw2a⟩ := matchTail_sound hm
          refine ⟨w1, ds, w2, r0, by rw [← hn]; simpa using hcs, by rw [← ha, ha0], hw1, hw1a,
            hds, hdsa, hw2, hw2a, Or.inr ?_⟩
          rw [← hr]
          exact (List.dropLast_append_getLast? '\n' hcond.2).symm
        · split at h
          · exact absurd h (by simp)
          · rw [Option.map_eq_some'] at h
            obtain ⟨p, hp, hpe⟩ := h
            obtain ⟨w1, ds, w2, r1, hs, ha1, hw1, hw1a, hds, hdsa, hw2, hw2a, hr01⟩ :=
              ih (n := p.1) (a := p.2.1) (r := p.2.2) (by rw [hp])
            simp only [Prod.mk.injEq] at hpe
            obtain ⟨hn, ha, hr⟩ := hpe
            refine ⟨w1, ds, w2, r1, ?_, by rw [← ha, ha1], hw1, hw1a, hds, hdsa, hw2, hw2a, ?_⟩
            · rw [← hn, hs]; simp
            · rw [← hr]; exact hr01
      · simp only [Option.some_inj, Prod.mk.injEq] at h
        obtain ⟨hn, ha, hr⟩ := h
        obtain ⟨w1, ds, w2, hcs, ha0, hw1, hw1a, hds, hdsa, hw2, hw2a⟩ := matchTail_sound hm
        exact ⟨w1, ds, w2, r, by rw [← hn]; simpa [hr] using hcs, by rw [← ha, ha0], hw1, hw1a,
          hds, hdsa, hw2, hw2a, Or.inl rfl⟩
    · rename_i hm
      split at h
      · exact absurd h (by simp)
      · rw [Option.map_eq_some'] at h
        obtain ⟨p, hp, hpe⟩ := h
        obtain ⟨w1, ds, w2, r1, hs, ha1, hw1, hw1a, hds, hdsa, hw2, hw2a, hr01⟩ :=
          ih (n := p.1) (a := p.2.1) (r := p.2.2) (by rw [hp])
        simp only [Prod.mk.injEq] at hpe
        obtain ⟨hn, ha, hr⟩ := hpe
        refine ⟨w1, ds, w2, r1, ?_, by rw [← ha, ha1], hw1, hw1a, hds, hdsa, hw2, hw2a, ?_⟩
        · rw [← hn, hs]; simp
        · rw [← hr]; exact hr01

/-- C1: for every input text, the parser returns exactly one record per
non-blank line (lines empty after trimming are skipped), in input order,
and never raises an error: the result is exactly the map of the per-line
total function over the non-blank lines, so a block with N non-blank lines
yields exactly N records in the same order. -/
theorem parser_total_coverage (today text : Str) :
    parse_consolidated_line today text =
      ((splitNl (pyStrip text)).filter (fun l => !(pyStrip l).isEmpty)).map
        (parseLineRow today) ∧
    (parse_consolidated_line today text).length =
      ((splitNl (pyStrip text)).filter (fun l => !(pyStrip l).isEmpty)).length := by
  have h := parseLines_eq today (splitNl (pyStrip text))
  exact ⟨h, by rw [parse_consolidated_line, h, List.length_map]⟩

/-- C2: every line on which the pattern search succeeds is parsed into the
record with the trimmed name capture, the trimmed amount capture (the
letter R and its digits), the trimmed remainder as reason, EFT type,
today's date and an empty receipt number; the captures decompose the
stripped line as optional leading text, whitespace, R-digits token,
whitespace, remainder (the name capture being the earliest such split);
in particular the Ebrahims example line parses to the stated record. -/
theorem parser_matched_line_correct (today : Str) :
    (∀ line n a r, searchLine (pyStrip line) = some (n, a, r) →
      parseLineRow today line =
        [("rn", []), ("date", today), ("name", pyStrip n), ("amount", pyStrip a),
         ("reason", pyStrip r), ("type", "EFT".data)] ∧
      ∃ w1 ds w2 r0, pyStrip line = n ++ w1 ++ 'R' :: ds ++ w2 ++ r0 ∧ a = 'R' :: ds ∧
        w1 ≠ [] ∧ w1.all isPySpace ∧ ds ≠ [] ∧ ds.all Char.isDigit ∧
        w2 ≠ [] ∧ w2.all isPySpace ∧ (r0 = r ∨ r0 = r ++ ['\n'])) ∧
    parseLineRow today "Ebrahims R2025 Feb (R675 sadia aqua R675 Faatima R675 Mo)".data =
      [("rn", []), ("date", today), ("name", "Ebrahims".data),
       ("amount", "R2025".data),
       ("reason", "Feb (R675 sadia aqua R675 Faatima R675 Mo)".data),
       ("type", "EFT".data)] := by
  constructor
  · intro line n a r h
    exact ⟨by rw [parseLineRow, h], searchLine_sound h⟩
  · have h : searchLine (pyStrip
        "Ebrahims R2025 Feb (R675 sadia aqua R675 Faatima R675 Mo)".data) =
        some ("Ebrahims".data, "R2025".data,
          "Feb (R675 sadia aqua R675 Faatima R675 Mo)".data) := by decide
    rw [parseLineRow, h]
    rfl

/-- Witness for C2 at a concrete matched line. -/
theorem parser_matched_line_correct_witness :
    parseLineRow "D".data "A R5 x".data =
      [("rn", []), ("date", "D".data), ("name", pyStrip "A".data),
       ("amount", pyStrip "R5".data), ("reason", pyStrip "x".data),
       ("type", "EFT".data)] ∧
    ∃ w1 ds w2 r0, pyStrip "A R5 x".data =
        "A".data ++ w1 ++ 'R' :: ds ++ w2 ++ r0 ∧ "R5".data = 'R' :: ds ∧
      w1 ≠ [] ∧ w1.all isPySpace ∧ ds ≠ [] ∧ ds.all Char.isDigit ∧
      w2 ≠ [] ∧ w2.all isPySpace ∧ (r0 = "x".data ∨ r0 = "x".data ++ ['\n']) :=
  (parser_matched_line_correct "D".data).1 "A R5 x".data
    "A".data "R5".data "x".data (by decide)

theorem hasRDigit_eq_true {l : Str} :
    hasRDigit l = true ↔ ∃ u d v, l = u ++ 'R' :: d :: v ∧ d.isDigit = true := by
  induction l with
  | nil => simp [hasRDigit]
  | cons c t ih =>
    cases t with
    | nil =>
      simp only [hasRDigit]
      constructor
      · intro h; exact absurd h (by simp)
      · rintro ⟨u, d, v, he, -⟩
        exact absurd (congrArg List.length he) (by simp; omega)
    | cons d t' =>
      rw [hasRDigit, Bool.or_eq_true, Bool.and_eq_true, ih]
      constructor
      · rintro (⟨hc, hd⟩ | ⟨u, e, v, he, hdig⟩)
        · exact ⟨[], d, t', by simp [show c = 'R' from by simpa using hc], hd⟩
        · exact ⟨c :: u, e, v, by rw [List.cons_append, ← he], hdig⟩
      · rintro ⟨u, e, v, he, hdig⟩
        cases u with
        | nil =>
          simp only [List.nil_append, List.cons.injEq] at he
          obtain ⟨hc, hd, -⟩ := he
          exact Or.inl ⟨by simp [hc], by rw [hd]; exact hdig⟩
        | cons b u' =>
          simp only [List.cons_append, List.cons.injEq] at he
          exact Or.inr ⟨u', e, v, he.2, hdig⟩

theorem pyStrip_decomp (s : Str) : ∃ u v, s = u ++ pyStrip s ++ v := by
  refine ⟨s.takeWhile isPySpace,
    ((s.dropWhile isPySpace).reverse.takeWhile isPySpace).reverse, ?_⟩
  conv_lhs => rw [← List.takeWhile_append_dropWhile (p := isPySpace) (l := s)]
  rw [List.append_assoc]
  congr 1
  conv_lhs => rw [← List.reverse_reverse (s.dropWhile isPySpace)]
  conv_lhs =>
    rw [← List.takeWhile_append_dropWhile (p := isPySpace)
      (l := (s.dropWhile isPySpace).reverse)]
  rw [List.reverse_append]
  rfl

theorem searchLine_none_of_no_rdigit {line : Str} (h : hasRDigit line = false) :
    searchLine (pyStrip line) = none := by
  cases hs : searchLine (pyStrip line) with
  | none => rfl
  | some p =>
    exfalso
    obtain ⟨w1, ds, w2, r0, hdec, -, -, -, hds, hdsa, -, -, -⟩ :=
      searchLine_sound (s := pyStrip line) (n := p.1) (a := p.2.1) (r := p.2.2) (by rw [hs])
    obtain ⟨u, v, huv⟩ := pyStrip_decomp line
    cases ds with
    | nil => exact hds rfl
    | cons d ds' =>
      have : hasRDigit line = true := by
        refine hasRDigit_eq_true.2 ⟨u ++ (p.1 ++ w1), d, ds' ++ w2 ++ r0 ++ v, ?_, ?_⟩
        · rw [huv, hdec]; simp
        · simpa using And.left (by simpa using hdsa : d.isDigit = true ∧ ds'.all Char.isDigit = true)
      rw [this] at h; exact absurd h (by simp)

/-- C5: a line on which the pattern search fails is parsed into the fallback
record: name is the first twenty characters of the raw line followed by an
ellipsis, amount is empty, reason is the full original line, type is EFT,
date is today and the receipt number is empty; in particular a line with no
R-followed-by-digit occurrence anywhere always takes the fallback, so its
reason equals the original line and its amount is empty. -/
theorem parser_fallback_correct (today line : Str) :
    (searchLine (pyStrip line) = none →
      parseLineRow today line =
        [("rn", []), ("date", today), ("name", line.take 20 ++ "...".data),
         ("amount", []), ("reason", line), ("type", "EFT".data)]) ∧
    (hasRDigit line = false →
      parseLineRow today line =
        [("rn", []), ("date", today), ("name", line.take 20 ++ "...".data),
         ("amount", []), ("reason", line), ("type", "EFT".data)] ∧
      getStr (parseLineRow today line) "reason" [] = line ∧
      getStr (parseLineRow today line) "amount" ['?'] = []) := by
  have hfall : searchLine (pyStrip line) = none →
      parseLineRow today line =
        [("rn", []), ("date", today), ("name", line.take 20 ++ "...".data),
         ("amount", []), ("reason", line), ("type", "EFT".data)] := by
    intro h; rw [parseLineRow, h]
  refine ⟨hfall, fun h => ?_⟩
  have he := hfall (searchLine_none_of_no_rdigit h)
  refine ⟨he, ?_, ?_⟩ <;> rw [he] <;> rfl

/-- Witness for C5 at a concrete unmatched line. -/
theorem parser_fallback_correct_witness :
    parseLineRow "D".data "hello world".data =
      [("rn", []), ("date", "D".data),
       ("name", "hello world".data.take 20 ++ "...".data),
       ("amount", []), ("reason", "hello world".data), ("type", "EFT".data)] ∧
    getStr (parseLineRow "D".data "hello world".data) "reason" [] = "hello world".data ∧
    getStr (parseLineRow "D".data "hello world".data) "amount" ['?'] = [] :=
  (parser_fallback_correct "D".data "hello world".data).2 (by decide)

/- ### Helper lemmas about the item findall -/

theorem space_ne_R {c : Char} (h : isPySpace c = true) : (c != 'R') = true := by
  by_cases hc : c = 'R'
  · subst hc; simp [isPySpace] at h
  · simp [bne_iff_ne]; exact hc

theorem tryItem_shape {cs item rest : Str} (h : tryItem cs = some (item, rest)) :
    ∃ ds w t, item = 'R' :: ds ++ w ++ t ∧ ds ≠ [] ∧ ds.all Char.isDigit ∧
      w ≠ [] ∧ w.all isPySpace ∧ t ≠ [] ∧ t.all (fun c => c != 'R') := by
  simp only [tryItem, List.span_eq_take_drop] at h
  split at h
  · exact absurd h (by simp)
  · rename_i h1
    split at h
    · exact absurd h (by simp)
    · rename_i h2
      have hwall : ((cs.dropWhile Char.isDigit).takeWhile isPySpace).all isPySpace =
          true := List.all_eq_true.2 fun x hx => List.mem_takeWhile_imp hx
      split at h
      · split at h
        · rename_i h3 h4
          rw [Option.some_inj, Prod.mk.injEq] at h
          set w := (cs.dropWhile Char.isDigit).takeWhile isPySpace with hw
          have hlast : w.getLast? = some (w.getLast (by
              intro he; rw [he] at h4; simp at h4)) :=
            List.getLast?_eq_getLast _ _
          have hgl : w.getLast (by intro he; rw [he] at h4; simp at h4) ∈ w :=
            List.getLast_mem _
          refine ⟨cs.takeWhile Char.isDigit, w.dropLast,
            [w.getLast (by intro he; rw [he] at h4; simp at h4)], ?_, by simpa using h1,
            List.all_eq_true.2 fun x hx => List.mem_takeWhile_imp hx, ?_, ?_, by simp, ?_⟩
          · rw [← h.1]
            have : w.dropLast ++ [w.getLast (by intro he; rw [he] at h4; simp at h4)] = w :=
              List.dropLast_append_getLast _
            rw [List.append_assoc, this]
          · intro he
            have := congrArg List.length (List.dropLast_append_getLast
              (l := w) (by intro he2; rw [he2] at h4; simp at h4))
            rw [he] at this
            simp at this
            omega
          · exact List.all_eq_true.2 fun x hx =>
              (List.all_eq_true.1 hwall) x (List.dropLast_sublist w |>.subset hx)
          · simp only [List.all_cons, List.all_nil, Bool.and_true]
            exact space_ne_R ((List.all_eq_true.1 hwall) _ hgl)
        · exact absurd h (by simp)
      · rename_i h3
        rw [Option.some_inj, Prod.mk.injEq] at h
        refine ⟨cs.takeWhile Char.isDigit, (cs.dropWhile Char.isDigit).takeWhile isPySpace,
          ((cs.dropWhile Char.isDigit).dropWhile isPySpace).takeWhile (fun c => c != 'R'),
          by rw [← h.1], by simpa using h1,
          List.all_eq_true.2 fun x hx => List.mem_takeWhile_imp hx,
          by simpa using h2, hwall, by simpa using h3,
          List.all_eq_true.2 fun x hx =>
            List.mem_takeWhile_imp (p := fun c => c != 'R') hx⟩

theorem findItemsAux_shape : ∀ fuel s it, it ∈ findItemsAux fuel s →
    ∃ ds w t, it = 'R' :: ds ++ w ++ t ∧ ds ≠ [] ∧ ds.all Char.isDigit ∧
      w ≠ [] ∧ w.all isPySpace ∧ t ≠ [] ∧ t.all (fun c => c != 'R') := by
  intro fuel
  induction fuel with
  | zero => intro s it h; exact absurd h (by simp [findItemsAux])
  | succ fuel ih =>
    intro s it h
    cases s with
    | nil => exact absurd h (by simp [findItemsAux])
    | cons c cs =>
      rw [findItemsAux] at h
      by_cases hc : c = 'R'
      · rw [if_pos hc] at h
        cases ht : tryItem cs with
        | some p =>
          obtain ⟨item, rest⟩ := p
          rw [ht] at h
          simp only [List.mem_cons] at h
          rcases h with h | h
          · exact h ▸ tryItem_shape ht
          · exact ih rest it h
        | none =>
          rw [ht] at h
          exact ih cs it h
      · rw [if_neg hc] at h
        exact ih cs it h

/-- C3 (counterexample): on the breakdown body of reason Feb (R1 Ro) the
renderer extracts no item at all, while the extraction the claim describes
(text running up to the next R-followed-by-digits or the end) yields the
single item R1 Ro: the non-R character class of the findall stops at every
letter R, not only at R-followed-by-digits. -/
theorem breakdown_items_cex :
    reasonMatch "Feb (R1 Ro)".data = some ("Feb ".data, "R1 Ro".data) ∧
    breakdownItemsInput (pyStrip "R1 Ro".data) = "R1 Ro".data ∧
    re_findall_items "R1 Ro".data = [] ∧
    specC3Items "R1 Ro".data = ["R1 Ro".data] ∧
    reasonOps .dflt "Feb (R1 Ro)".data =
      [{ pos := (260, 355), text := "Feb".data, fill := black, font := .dflt }] ∧
    re_findall_items "R1 Ro".data ≠ specC3Items "R1 Ro".data := by decide

/-- C3 (amended): every extracted breakdown item consists of the letter R,
one or more digits, one or more whitespace characters, then one or more
characters none of which is the letter R (so an item's text stops at the
next letter R of any kind, or at the end); in particular the breakdown
body R675 Sadia R675 Fatima yields exactly the trimmed items R675 Sadia
and R675 Fatima in that order, drawn in that order. -/
theorem breakdown_items_amended :
    (∀ fuel s it, it ∈ findItemsAux fuel s →
      ∃ ds w t, it = 'R' :: ds ++ w ++ t ∧ ds ≠ [] ∧ ds.all Char.isDigit ∧
        w ≠ [] ∧ w.all isPySpace ∧ t ≠ [] ∧ t.all (fun c => c != 'R')) ∧
    (re_findall_items "R675 Sadia R675 Fatima".data).map pyStrip =
      ["R675 Sadia".data, "R675 Fatima".data] ∧
    reasonOps .dflt "Feb (R675 Sadia R675 Fatima)".data =
      [{ pos := (260, 355), text := "Feb".data, fill := black, font := .dflt },
       { pos := (270, 375), text := "- R675 Sadia".data, fill := black, font := .dflt },
       { pos := (270, 395), text := "- R675 Fatima".data, fill := black, font := .dflt }] :=
  ⟨findItemsAux_shape, by decide, by decide⟩

/-- Witness for the amended C3 at a concrete extracted item. -/
theorem breakdown_items_amended_witness :
    ∃ ds w t, "R675 Sadia ".data = 'R' :: ds ++ w ++ t ∧ ds ≠ [] ∧
      ds.all Char.isDigit ∧ w ≠ [] ∧ w.all isPySpace ∧ t ≠ [] ∧
      t.all (fun c => c != 'R') :=
  breakdown_items_amended.1 22 "R675 Sadia R675 Fatima".data "R675 Sadia ".data
    (by decide)

/-- C4: when the stripped breakdown body does not start with the letter R,
the renderer prepends an R to the body before the item extraction; in
particular the reason Feb (675 Sadia) yields exactly one extracted item,
R675 Sadia. -/
theorem breakdown_prepend_correct :
    (∀ bt, startsWithR (pyStrip bt) = false → breakdownItemsInput bt = 'R' :: bt) ∧
    reasonMatch "Feb (675 Sadia)".data = some ("Feb ".data, "675 Sadia".data) ∧
    breakdownItemsInput (pyStrip "675 Sadia".data) = "R675 Sadia".data ∧
    re_findall_items (breakdownItemsInput (pyStrip "675 Sadia".data)) =
      ["R675 Sadia".data] ∧
    reasonOps .dflt "Feb (675 Sadia)".data =
      [{ pos := (260, 355), text := "Feb".data, fill := black, font := .dflt },
       { pos := (270, 375), text := "- R675 Sadia".data, fill := black, font := .dflt }] := by
  refine ⟨fun bt h => ?_, by decide, by decide, by decide, by decide⟩
  rw [breakdownItemsInput, h]
  rfl

/-- Witness for C4 at a concrete breakdown body. -/
theorem breakdown_prepend_correct_witness :
    breakdownItemsInput "675 Sadia".data = 'R' :: "675 Sadia".data :=
  breakdown_prepend_correct.1 "675 Sadia".data (by decide)

/- ### Helper lemmas about the renderer's draw positions -/

theorem reasonOps_y_ge (font : PILFont) (s : Str) :
    ∀ op ∈ reasonOps font s, 355 ≤ op.pos.2 := by
  intro op hop
  rw [reasonOps] at hop
  split at hop
  · simp only [List.mem_cons, List.mem_map] at hop
    rcases hop with h | ⟨p, _, he⟩
    · rw [h]
    · rw [← he]; simp; omega
  · simp only [List.mem_map] at hop
    obtain ⟨p, _, he⟩ := hop
    rw [← he]; simp

theorem reason_filter_nil (font : PILFont) (s : Str) :
    (reasonOps font s).filter
      (fun op => op.pos == ((97, 172) : Nat × Nat) ||
        op.pos == ((197, 172) : Nat × Nat)) = [] := by
  rw [List.filter_eq_nil_iff]
  intro op hop hcontra
  have h := reasonOps_y_ge font s op hop
  simp only [Bool.or_eq_true, beq_iff_eq] at hcontra
  rcases hcontra with h1 | h1 <;> rw [h1] at h <;> simp at h

/-- C7: for every record the renderer marks exactly one checkbox position:
the draw calls landing on either checkbox position are exactly one X mark,
at the CASH position when and only when the trimmed upper-cased payment
type contains CASH as a substring, and at the EFT position otherwise
(including for missing, empty or unrecognized types). -/
theorem checkbox_exclusive (data : RecordMap) (arial : Bool) :
    (receipt_draw_ops data arial).filter
        (fun op => op.pos == ((97, 172) : Nat × Nat) ||
          op.pos == ((197, 172) : Nat × Nat)) =
      [{ pos := if isSubstringOf "CASH".data
              (pyUpper (pyStrip (getStr data "type" "EFT".data)))
            then (97, 172) else (197, 172),
         text := "X".data, fill := black, font := (get_fonts arial).2 }] := by
  simp only [receipt_draw_ops]
  have hr := reason_filter_nil (get_fonts arial).1 (getStr data "reason" [])
  by_cases hc : isSubstringOf "CASH".data
      (pyUpper (pyStrip (getStr data "type" "EFT".data))) = true
  · rw [if_pos hc, if_pos hc, List.filter_append, List.filter_append, hr]
    rfl
  · rw [if_neg hc, if_neg hc, List.filter_append, List.filter_append, hr]
    rfl

/-- The renderer's draw calls always take the form: one checkbox mark, the
four standard fields in order (with the stored or defaulted texts), then the
reason formatting. -/
theorem receipt_draw_ops_shape (data : RecordMap) (arial : Bool) :
    receipt_draw_ops data arial =
      { pos := if isSubstringOf "CASH".data
              (pyUpper (pyStrip (getStr data "type" "EFT".data)))
            then ((97, 172) : Nat × Nat) else (197, 172),
        text := "X".data, fill := black, font := (get_fonts arial).2 } ::
      { pos := (400, 185), text := getStr data "rn" [], fill := black,
        font := (get_fonts arial).1 } ::
      { pos := (260, 225), text := getStr data "name" [], fill := black,
        font := (get_fonts arial).1 } ::
      { pos := (260, 290), text := getStr data "amount" [], fill := black,
        font := (get_fonts arial).1 } ::
      { pos := (400, 443), text := getStr data "date" [], fill := black,
        font := (get_fonts arial).1 } ::
      reasonOps (get_fonts arial).1 (getStr data "reason" []) := by
  simp only [receipt_draw_ops]
  by_cases hc : isSubstringOf "CASH".data
      (pyUpper (pyStrip (getStr data "type" "EFT".data))) = true
  · rw [if_pos hc, if_pos hc]
    rfl
  · rw [if_neg hc, if_neg hc]
    rfl

/-- C9: the renderer never fails on missing fields: for every record it
draws the checkbox mark and the four standard fields (at least five draw
calls), and each field that is absent from the record — independently of
the others — is rendered as empty text: an absent type defaults to EFT, so
the mark is drawn at the EFT position; absent receipt number, name, amount
and date are drawn as the empty string at their positions; and an absent
reason (the empty string) wraps to no lines, so nothing is drawn for it. -/
theorem renderer_missing_fields (data : RecordMap) (arial : Bool) :
    5 ≤ (receipt_draw_ops data arial).length ∧
    (data.lookup "type" = none →
      (receipt_draw_ops data arial).get? 0 =
        some { pos := (197, 172), text := "X".data, fill := black,
               font := (get_fonts arial).2 }) ∧
    (data.lookup "rn" = none →
      (receipt_draw_ops data arial).get? 1 =
        some { pos := (400, 185), text := [], fill := black,
               font := (get_fonts arial).1 }) ∧
    (data.lookup "name" = none →
      (receipt_draw_ops data arial).get? 2 =
        some { pos := (260, 225), text := [], fill := black,
               font := (get_fonts arial).1 }) ∧
    (data.lookup "amount" = none →
      (receipt_draw_ops data arial).get? 3 =
        some { pos := (260, 290), text := [], fill := black,
               font := (get_fonts arial).1 }) ∧
    (data.lookup "date" = none →
      (receipt_draw_ops data arial).get? 4 =
        some { pos := (400, 443), text := [], fill := black,
               font := (get_fonts arial).1 }) ∧
    (data.lookup "reason" = none →
      (receipt_draw_ops data arial).length = 5) := by
  have hs := receipt_draw_ops_shape data arial
  refine ⟨?_, ?_, ?_, ?_, ?_, ?_, ?_⟩
  · rw [hs]
    simp only [List.length_cons]
    omega
  · intro ht
    have hty : getStr data "type" "EFT".data = "EFT".data := by
      rw [getStr, ht]
      rfl
    rw [hs, hty,
      show isSubstringOf "CASH".data (pyUpper (pyStrip "EFT".data)) = false from by decide]
    rfl
  · intro h
    rw [hs]
    simp only [getStr, h, Option.getD_none]
    rfl
  · intro h
    rw [hs]
    simp only [getStr, h, Option.getD_none]
    rfl
  · intro h
    rw [hs]
    simp only [getStr, h, Option.getD_none]
    rfl
  · intro h
    rw [hs]
    simp only [getStr, h, Option.getD_none]
    rfl
  · intro h
    rw [hs]
    simp only [getStr, h, Option.getD_none]
    rw [reasonOps, show reasonMatch ([] : Str) = none from by decide,
      show textwrap_wrap 45 ([] : Str) = [] from by decide]
    rfl

/-- Witness for C9 at a partially filled record: name and amount are
present, while type, receipt number, date and reason are absent, and each
absent field renders as empty (EFT mark, empty receipt number and date
texts, no reason lines). -/
theorem renderer_missing_fields_witness :
    (receipt_draw_ops [("name", "Jo".data), ("amount", "R9".data)] false).get? 0 =
      some { pos := (197, 172), text := "X".data, fill := black,
             font := (get_fonts false).2 } ∧
    (receipt_draw_ops [("name", "Jo".data), ("amount", "R9".data)] false).get? 1 =
      some { pos := (400, 185), text := [], fill := black,
             font := (get_fonts false).1 } ∧
    (receipt_draw_ops [("name", "Jo".data), ("amount", "R9".data)] false).get? 4 =
      some { pos := (400, 443), text := [], fill := black,
             font := (get_fonts false).1 } ∧
    (receipt_draw_ops [("name", "Jo".data), ("amount", "R9".data)] false).length = 5 :=
  ⟨(renderer_missing_fields [("name", "Jo".data), ("amount", "R9".data)] false).2.1 rfl,
   (renderer_missing_fields [("name", "Jo".data), ("amount", "R9".data)] false).2.2.1 rfl,
   (renderer_missing_fields [("name", "Jo".data), ("amount", "R9".data)] false).2.2.2.2.2.1 rfl,
   (renderer_missing_fields [("name", "Jo".data), ("amount", "R9".data)] false).2.2.2.2.2.2 rfl⟩

/- ### Helper lemmas about the image heap -/

theorem Heap.draw_get_ne (h : Heap) (r r' : Nat) (op : DrawOp) (hne : r' ≠ r) :
    (h.draw r op).cells.get? r' = h.cells.get? r' := by
  rw [Heap.draw]
  split
  · simp only [List.get?_eq_getElem?]
    exact List.getElem?_set_ne (fun he => hne he.symm)
  · rfl

theorem Heap.draw_get_self (h : Heap) (r : Nat) (op : DrawOp) (img : PILImage)
    (hr : h.cells.get? r = some img) :
    (h.draw r op).cells.get? r = some { img with ops := img.ops ++ [op] } := by
  have hlt : r < h.cells.length := by
    by_contra hge
    rw [List.get?_eq_none.2 (Nat.le_of_not_lt hge)] at hr
    exact absurd hr (by simp)
  rw [Heap.draw, hr]
  simp only [List.get?_eq_getElem?]
  exact List.getElem?_set_self hlt

theorem Heap.draw_length (h : Heap) (r : Nat) (op : DrawOp) :
    (h.draw r op).cells.length = h.cells.length := by
  rw [Heap.draw]
  split
  · exact List.length_set h.cells r _
  · rfl

theorem foldl_draw_get_ne (ops : List DrawOp) (h : Heap) (r r' : Nat) (hne : r' ≠ r) :
    (ops.foldl (fun hh op => hh.draw r op) h).cells.get? r' = h.cells.get? r' := by
  induction ops generalizing h with
  | nil => rfl
  | cons op ops ih => rw [List.foldl_cons, ih, Heap.draw_get_ne h r r' op hne]

theorem foldl_draw_get_self (ops : List DrawOp) (h : Heap) (r : Nat) (img : PILImage)
    (hr : h.cells.get? r = some img) :
    (ops.foldl (fun hh op => hh.draw r op) h).cells.get? r =
      some { img with ops := img.ops ++ ops } := by
  induction ops generalizing h img with
  | nil => simpa using hr
  | cons op ops ih =>
    rw [List.foldl_cons, ih (h.draw r op) _ (Heap.draw_get_self h r op img hr)]
    simp

theorem foldl_draw_length (ops : List DrawOp) (h : Heap) (r : Nat) :
    (ops.foldl (fun hh op => hh.draw r op) h).cells.length = h.cells.length := by
  induction ops generalizing h with
  | nil => rfl
  | cons op ops ih => rw [List.foldl_cons, ih, Heap.draw_length]

/-- C8: rendering is pure and non-mutating: with the same record, the same
font availability and the same template reference, two successive calls
return two distinct image objects whose contents (template payload plus
applied draw calls) are identical, and the template cell is unchanged in
the heap after each call. -/
theorem render_pure_nonmutating (data : RecordMap) (arial : Bool) (h : Heap)
    (tmplRef : Nat) (htr : tmplRef < h.cells.length) :
    (create_receipt_image data arial tmplRef h).2.cells.get? tmplRef =
        h.cells.get? tmplRef ∧
    (create_receipt_image data arial tmplRef
        (create_receipt_image data arial tmplRef h).2).2.cells.get? tmplRef =
      h.cells.get? tmplRef ∧
    (create_receipt_image data arial tmplRef h).1 ≠
      (create_receipt_image data arial tmplRef
        (create_receipt_image data arial tmplRef h).2).1 ∧
    (create_receipt_image data arial tmplRef
          (create_receipt_image data arial tmplRef h).2).2.cells.get?
        (create_receipt_image data arial tmplRef h).1 =
      (create_receipt_image data arial tmplRef
          (create_receipt_image data arial tmplRef h).2).2.cells.get?
        (create_receipt_image data arial tmplRef
          (create_receipt_image data arial tmplRef h).2).1 := by
  obtain ⟨timg, htimg⟩ : ∃ img, h.cells.get? tmplRef = some img := by
    cases hx : h.cells.get? tmplRef with
    | some i => exact ⟨i, rfl⟩
    | none => rw [List.get?_eq_none] at hx; omega
  have hne1 : tmplRef ≠ h.cells.length := Nat.ne_of_lt htr
  have hread : h.read tmplRef = some timg := htimg
  have halloc1 : (h.cells ++ [timg]).get? tmplRef = h.cells.get? tmplRef :=
    List.get?_append htr
  have hfresh1 : (h.cells ++ [timg]).get? h.cells.length = some timg :=
    List.get?_concat_length h.cells timg
  -- the first call
  have e1 : create_receipt_image data arial tmplRef h =
      (h.cells.length,
        (receipt_draw_ops data arial).foldl
          (fun hh op => hh.draw h.cells.length op)
          ({ cells := h.cells ++ [timg] } : Heap)) := by
    rw [create_receipt_image, Heap.alloc, hread]
    rfl
  set R := receipt_draw_ops data arial with hR
  set H1 := R.foldl (fun hh op => hh.draw h.cells.length op)
    ({ cells := h.cells ++ [timg] } : Heap) with hH1
  have h1t : H1.cells.get? tmplRef = h.cells.get? tmplRef := by
    rw [hH1, foldl_draw_get_ne _ _ _ _ hne1]
    exact halloc1
  have h1n : H1.cells.get? h.cells.length =
      some { timg with ops := timg.ops ++ R } := by
    rw [hH1]
    exact foldl_draw_get_self R { cells := h.cells ++ [timg] } h.cells.length timg hfresh1
  have h1len : H1.cells.length = h.cells.length + 1 := by
    rw [hH1, foldl_draw_length]
    simp
  -- the second call
  have hread2 : H1.read tmplRef = some timg := by
    rw [Heap.read, h1t]; exact htimg
  have e2 : create_receipt_image data arial tmplRef H1 =
      (H1.cells.length,
        R.foldl (fun hh op => hh.draw H1.cells.length op)
          ({ cells := H1.cells ++ [timg] } : Heap)) := by
    rw [create_receipt_image, Heap.alloc, hread2]
    rfl
  set H2 := R.foldl (fun hh op => hh.draw H1.cells.length op)
    ({ cells := H1.cells ++ [timg] } : Heap) with hH2
  have hne2 : tmplRef ≠ H1.cells.length := by omega
  have hne3 : h.cells.length ≠ H1.cells.length := by omega
  have h2t : H2.cells.get? tmplRef = h.cells.get? tmplRef := by
    rw [hH2, foldl_draw_get_ne _ _ _ _ hne2, List.get?_append (by omega), h1t]
  have h2n1 : H2.cells.get? h.cells.length =
      some { timg with ops := timg.ops ++ R } := by
    rw [hH2, foldl_draw_get_ne _ _ _ _ hne3, List.get?_append (by omega), h1n]
  have h2n2 : H2.cells.get? H1.cells.length =
      some { timg with ops := timg.ops ++ R } :=
    foldl_draw_get_self R { cells := H1.cells ++ [timg] } H1.cells.length timg
      (List.get?_concat_length H1.cells timg)
  rw [e1]
  simp only
  rw [e2]
  simp only
  exact ⟨h1t, h2t, hne3, by rw [h2n1, h2n2]⟩

/-- Witness for C8 at a concrete one-image heap. -/
theorem render_pure_nonmutating_witness :
    (create_receipt_image [] false 0 ⟨[⟨[[(1, 2, 3)]], []⟩]⟩).2.cells.get? 0 =
        (⟨[⟨[[(1, 2, 3)]], []⟩]⟩ : Heap).cells.get? 0 ∧
    (create_receipt_image [] false 0
        (create_receipt_image [] false 0 ⟨[⟨[[(1, 2, 3)]], []⟩]⟩).2).2.cells.get? 0 =
      (⟨[⟨[[(1, 2, 3)]], []⟩]⟩ : Heap).cells.get? 0 ∧
    (create_receipt_image [] false 0 ⟨[⟨[[(1, 2, 3)]], []⟩]⟩).1 ≠
      (create_receipt_image [] false 0
        (create_receipt_image [] false 0 ⟨[⟨[[(1, 2, 3)]], []⟩]⟩).2).1 ∧
    (create_receipt_image [] false 0
          (create_receipt_image [] false 0 ⟨[⟨[[(1, 2, 3)]], []⟩]⟩).2).2.cells.get?
        (create_receipt_image [] false 0 ⟨[⟨[[(1, 2, 3)]], []⟩]⟩).1 =
      (create_receipt_image [] false 0
          (create_receipt_image [] false 0 ⟨[⟨[[(1, 2, 3)]], []⟩]⟩).2).2.cells.get?
        (create_receipt_image [] false 0
          (create_receipt_image [] false 0 ⟨[⟨[[(1, 2, 3)]], []⟩]⟩).2).1 :=
  render_pure_nonmutating [] false ⟨[⟨[[(1, 2, 3)]], []⟩]⟩ 0 (by decide)

/- ### Helper lemmas about the breakdown regex and newline segments -/

theorem lastIdxOf_none_iff {c : Char} : ∀ {s : Str},
    lastIdxOf c s = none ↔ s.contains c = false := by
  intro s
  induction s with
  | nil => simp [lastIdxOf]
  | cons a t ih =>
    rw [lastIdxOf]
    cases hl : lastIdxOf c t with
    | some j =>
      have hct : t.contains c = true := by
        cases hct : t.contains c with
        | true => rfl
        | false => rw [ih.2 hct] at hl; exact absurd hl (by simp)
      constructor
      · intro h
        exact absurd h (by simp)
      · intro h
        rw [List.contains_cons, hct] at h
        simp at h
    | none =>
      have hct : t.contains c = false := ih.1 hl
      constructor
      · intro h
        rw [List.contains_cons, hct]
        by_cases hac : a = c
        · rw [if_pos hac] at h
          exact absurd h (by simp)
        · simp [beq_eq_false_iff_ne.2 fun hh => hac hh.symm]
      · intro h
        rw [List.contains_cons, hct] at h
        by_cases hac : a = c
        · rw [hac] at h
          simp at h
        · rw [if_neg hac]

theorem lastIdxOf_lt {c : Char} : ∀ {s : Str} {j}, lastIdxOf c s = some j →
    j < s.length := by
  intro s
  induction s with
  | nil => intro j h; simp [lastIdxOf] at h
  | cons a t ih =>
    intro j h
    rw [lastIdxOf] at h
    split at h
    · rename_i j0 hl
      rw [Option.some_inj] at h
      have := ih hl
      simp only [List.length_cons]
      omega
    · split at h
      · rw [Option.some_inj] at h
        simp only [List.length_cons]
        omega
      · exact absurd h (by simp)

theorem lastIdxOf_get {c : Char} : ∀ {s : Str} {j}, lastIdxOf c s = some j →
    s.get? j = some c := by
  intro s
  induction s with
  | nil => intro j h; simp [lastIdxOf] at h
  | cons a t ih =>
    intro j h
    rw [lastIdxOf] at h
    split at h
    · rename_i j0 hl
      rw [Option.some_inj] at h
      rw [← h]
      exact ih hl
    · split at h
      · rename_i hac
        rw [Option.some_inj] at h
        rw [← h, hac]
        rfl
      · exact absurd h (by simp)

theorem lastIdxOf_drop {c : Char} : ∀ {s : Str} {j}, lastIdxOf c s = some j →
    (s.drop (j + 1)).contains c = false := by
  intro s
  induction s with
  | nil => intro j h; simp [lastIdxOf] at h
  | cons a t ih =>
    intro j h
    rw [lastIdxOf] at h
    split at h
    · rename_i j0 hl
      rw [Option.some_inj] at h
      rw [← h]
      exact ih hl
    · split at h
      · rw [Option.some_inj] at h
        rw [← h]
        exact lastIdxOf_none_iff.1 (by assumption)
      · exact absurd h (by simp)

theorem lastIdxOf_append_no {c : Char} {e : Str} (he : e.contains c = false) :
    ∀ s : Str, lastIdxOf c (s ++ e) = lastIdxOf c s := by
  intro s
  induction s with
  | nil => simp [lastIdxOf, lastIdxOf_none_iff.2 he]
  | cons a t ih =>
    rw [List.cons_append, lastIdxOf, lastIdxOf, ih]

theorem segMatch_decomp {seg m b : Str} (h : segMatch seg = some (m, b)) :
    ∃ suffix, seg = m ++ '(' :: (b ++ ')' :: suffix) ∧
      suffix.contains ')' = false := by
  rw [segMatch] at h
  split at h
  · exact absurd h (by simp)
  · rename_i j hj
    split at h
    · exact absurd h (by simp)
    · rename_i i hi
      rw [Option.some_inj, Prod.mk.injEq] at h
      obtain ⟨hm, hb⟩ := h
      have hjlt : j < seg.length := lastIdxOf_lt hj
      have hilt : i < (seg.take j).length := lastIdxOf_lt hi
      have hij : i < j := by
        have h2 := hilt
        rw [List.length_take] at h2
        exact lt_of_lt_of_le h2 (min_le_left _ _)
      refine ⟨seg.drop (j + 1), ?_, lastIdxOf_drop hj⟩
      have hsplit : seg = seg.take j ++ seg.drop j := (List.take_append_drop j seg).symm
      have hdropj : seg.drop j = ')' :: seg.drop (j + 1) := by
        rw [List.drop_eq_getElem_cons hjlt]
        have := lastIdxOf_get hj
        rw [List.get?_eq_getElem? , List.getElem?_eq_getElem hjlt, Option.some_inj] at this
        rw [this]
      have htj : seg.take j =
          (seg.take j).take i ++ (seg.take j).drop i := (List.take_append_drop i _).symm
      have hdropi : (seg.take j).drop i = '(' :: (seg.take j).drop (i + 1) := by
        rw [List.drop_eq_getElem_cons hilt]
        have := lastIdxOf_get hi
        rw [List.get?_eq_getElem?, List.getElem?_eq_getElem hilt, Option.some_inj] at this
        rw [this]
      have hmteq : (seg.take j).take i = m := by
        rw [← hm, List.take_take]
        congr 1
        omega
      conv_lhs => rw [hsplit, hdropj, htj, hdropi, hmteq]
      rw [← hb]
      simp

theorem segMatch_append_no {seg m b e : Str} (he : e.contains ')' = false)
    (h : segMatch seg = some (m, b)) : segMatch (seg ++ e) = some (m, b) := by
  rw [segMatch] at h ⊢
  rw [lastIdxOf_append_no he]
  split at h
  · exact absurd h (by simp)
  · rename_i j hj
    have hjle : j ≤ seg.length := Nat.le_of_lt (lastIdxOf_lt hj)
    rw [List.take_append_of_le_length hjle]
    split at h
    · exact absurd h (by simp)
    · rename_i i hi
      have hile : i ≤ seg.length := by
        have h2 := lastIdxOf_lt hi
        rw [List.length_take] at h2
        omega
      rw [List.take_append_of_le_length hile]
      exact h

theorem contains_false_not_mem {c : Char} {l : Str} (h : l.contains c = false) :
    c ∉ l := by
  intro hm
  have : l.contains c = true := List.elem_iff.2 hm
  rw [this] at h
  exact absurd h (by simp)

theorem contains_false_of_not_mem {c : Char} {l : Str} (h : c ∉ l) :
    l.contains c = false := by
  cases hc : l.contains c with
  | false => rfl
  | true => exact absurd (List.elem_iff.1 hc) h

theorem splitNl_ne_nil : ∀ s : Str, splitNl s ≠ [] := by
  intro s
  cases s with
  | nil => simp [splitNl]
  | cons c t =>
    rw [splitNl]
    by_cases hc : c = '\n'
    · simp [hc]
    · rw [if_neg hc]
      split
      · simp
      · simp

theorem splitNl_no_nl : ∀ {s : Str}, s.contains '\n' = false → splitNl s = [s] := by
  intro s
  induction s with
  | nil => intro h; rfl
  | cons c t ih =>
    intro h
    rw [List.contains_cons, Bool.or_eq_false_iff] at h
    have hc : ¬c = '\n' := fun he => by
      rw [he] at h
      simpa using h.1
    rw [splitNl, if_neg hc, ih h.2]

theorem splitNl_append {s : Str} (e : Str) (h : s.contains '\n' = false) :
    ∃ e0 rest, splitNl e = e0 :: rest ∧ splitNl (s ++ e) = (s ++ e0) :: rest := by
  induction s with
  | nil =>
    cases hse : splitNl e with
    | nil => exact absurd hse (splitNl_ne_nil e)
    | cons e0 rest => exact ⟨e0, rest, rfl, by simpa using hse⟩
  | cons c t ih =>
    rw [List.contains_cons, Bool.or_eq_false_iff] at h
    obtain ⟨e0, rest, he1, he2⟩ := ih h.2
    have hc : ¬c = '\n' := fun he => by
      rw [he] at h
      simpa using h.1
    refine ⟨e0, rest, he1, ?_⟩
    rw [List.cons_append, splitNl, if_neg hc, he2]
    rfl

theorem splitNl_head_subset : ∀ {e e0 : Str} {rest : List Str},
    splitNl e = e0 :: rest → ∀ x ∈ e0, x ∈ e := by
  intro e
  induction e with
  | nil =>
    intro e0 rest h x hx
    rw [show splitNl [] = [[]] from rfl] at h
    rw [List.cons.injEq] at h
    rw [← h.1] at hx
    exact absurd hx (by simp)
  | cons c t ih =>
    intro e0 rest h x hx
    rw [splitNl] at h
    by_cases hc : c = '\n'
    · rw [if_pos hc] at h
      rw [List.cons.injEq] at h
      rw [← h.1] at hx
      exact absurd hx (by simp)
    · rw [if_neg hc] at h
      cases hst : splitNl t with
      | nil => exact absurd hst (splitNl_ne_nil t)
      | cons h0 r0 =>
        rw [hst] at h
        rw [List.cons.injEq] at h
        rw [← h.1] at hx
        rcases List.mem_cons.1 hx with hxc | hxh
        · rw [hxc]; exact List.mem_cons_self c t
        · exact List.mem_cons_of_mem c (ih hst x hxh)

theorem reasonMatch_no_nl {s : Str} (h : s.contains '\n' = false) :
    reasonMatch s = segMatch s := by
  rw [reasonMatch, splitNl_no_nl h, List.map_cons, List.map_nil]
  cases hs : segMatch s with
  | some p => rfl
  | none => rfl

theorem reasonMatch_append_no {s m b extra : Str} (hnl : s.contains '\n' = false)
    (hm : reasonMatch s = some (m, b)) (he : extra.contains ')' = false) :
    reasonMatch (s ++ extra) = some (m, b) := by
  have hsm : segMatch s = some (m, b) := by rw [← reasonMatch_no_nl hnl]; exact hm
  obtain ⟨e0, rest, he1, he2⟩ := splitNl_append extra hnl
  have he0 : e0.contains ')' = false := contains_false_of_not_mem fun hmem =>
    contains_false_not_mem he (splitNl_head_subset he1 _ hmem)
  rw [reasonMatch, he2, List.map_cons, segMatch_append_no he0 hsm]
  rfl

/-- C10 (counterexample): the reason string with characters a(b, a newline,
then )c contains an open parenthesis (index 1) followed later by a close
parenthesis (index 4), yet the breakdown regex cannot match across the
newline, so the renderer takes the word-wrap branch and draws the whole
munged reason, including the character c that appears after the last close
parenthesis. -/
theorem paren_suffix_cex :
    "a(b\n)c".data.get? 1 = some '(' ∧
    "a(b\n)c".data.get? 4 = some ')' ∧
    lastIdxOf ')' "a(b\n)c".data = some 4 ∧
    "a(b\n)c".data.drop 5 = ['c'] ∧
    reasonMatch "a(b\n)c".data = none ∧
    reasonOps .dflt "a(b\n)c".data =
      [{ pos := (260, 355), text := "a(b )c".data, fill := black, font := .dflt }] ∧
    'c' ∈ "a(b )c".data := by decide

/-- C10 (amended): for every newline-free reason on which the breakdown
regex matches (an open parenthesis later followed by a close parenthesis
within one line), the reason decomposes as the drawn main prefix, the
matched parentheses around the breakdown body, and a suffix containing no
close parenthesis; the renderer draws exactly the trimmed main prefix and
the extracted items, and appending any text free of close parentheses
after the reason leaves the reason drawing unchanged, so nothing after the
last close parenthesis is ever drawn. -/
theorem paren_suffix_amended (font : PILFont) (s m b : Str)
    (hnl : s.contains '\n' = false) (hm : reasonMatch s = some (m, b)) :
    (∃ suffix, s = m ++ '(' :: (b ++ ')' :: suffix) ∧
      suffix.contains ')' = false) ∧
    reasonOps font s =
      { pos := (260, 355), text := pyStrip m, fill := black, font := font } ::
        ((re_findall_items (breakdownItemsInput (pyStrip b))).enum.map fun p =>
          { pos := (270, 375 + 20 * p.1), text := '-' :: ' ' :: pyStrip p.2,
            fill := black, font := font }) ∧
    (∀ extra, extra.contains ')' = false →
      reasonOps font (s ++ extra) = reasonOps font s) := by
  have hsm : segMatch s = some (m, b) := by rw [← reasonMatch_no_nl hnl]; exact hm
  refine ⟨segMatch_decomp hsm, by rw [reasonOps, hm], fun extra he => ?_⟩
  rw [reasonOps, reasonOps, hm, reasonMatch_append_no hnl hm he]

/-- Witness for the amended C10: appending close-parenthesis-free text after
a matched reason does not change the reason drawing. -/
theorem paren_suffix_amended_witness :
    reasonOps .dflt ("Feb (R675 Sadia)".data ++ " x".data) =
      reasonOps .dflt "Feb (R675 Sadia)".data :=
  (paren_suffix_amended .dflt "Feb (R675 Sadia)".data "Feb ".data "R675 Sadia".data
    (by decide) (by decide)).2.2 " x".data (by decide)

/- ### Helper lemmas for the wrap of canonical word lists -/

theorem dropWhile_no_ws {l : Str} (h : ∀ c ∈ l, isPySpace c = false) :
    l.dropWhile isPySpace = l := by
  cases l with
  | nil => rfl
  | cons c t =>
    rw [List.dropWhile_cons_of_neg]
    simp [h c (List.mem_cons_self c t)]

theorem pyStrip_no_ws {w : Str} (h : ∀ c ∈ w, isPySpace c = false) : pyStrip w = w := by
  rw [pyStrip, dropWhile_no_ws h,
    dropWhile_no_ws (fun c hc => h c (List.mem_reverse.1 hc)), List.reverse_reverse]

theorem stripEmpty_word {w : Str} (hne : w ≠ []) (h : ∀ c ∈ w, isPySpace c = false) :
    stripEmpty w = false := by
  rw [stripEmpty, pyStrip_no_ws h]
  simpa using hne

theorem joinSpace_cons₂ (w w2 : Str) (r : List Str) :
    joinSpace (w :: w2 :: r) = w ++ ' ' :: joinSpace (w2 :: r) := rfl

theorem flatten_interChunks : ∀ ws : List Str, (interChunks ws).flatten = joinSpace ws := by
  intro ws
  induction ws with
  | nil => rfl
  | cons w rest ih =>
    cases rest with
    | nil => simp [interChunks, pairChunks, joinSpace]
    | cons w2 r2 =>
      rw [interChunks, pairChunks, joinSpace_cons₂, ← ih, interChunks]
      simp

theorem totalLen_cons (c : Str) (r : List Str) :
    totalLen (c :: r) = c.length + totalLen r := by
  simp [totalLen]

theorem totalLen_append (a b : List Str) :
    totalLen (a ++ b) = totalLen a + totalLen b := by
  simp [totalLen]

theorem length_flatten_eq_totalLen : ∀ a : List Str, a.flatten.length = totalLen a := by
  intro a
  induction a with
  | nil => rfl
  | cons c r ih => simp [List.flatten_cons, totalLen_cons, ih]

theorem joinSpace_ne_nil {ws : List Str} (hne : ws ≠ []) (h : ∀ w ∈ ws, w ≠ []) :
    joinSpace ws ≠ [] := by
  cases ws with
  | nil => exact absurd rfl hne
  | cons w rest =>
    cases rest with
    | nil => exact h w (by simp)
    | cons w2 r2 =>
      rw [joinSpace_cons₂]
      intro he
      have hl := congrArg List.length he
      simp at hl

theorem joinSpace_take_drop : ∀ (ws : List Str) (k : Nat), 1 ≤ k → k < ws.length →
    joinSpace ws = joinSpace (ws.take k) ++ ' ' :: joinSpace (ws.drop k) := by
  intro ws
  induction ws with
  | nil => intro k h1 h2; simp at h2
  | cons w rest ih =>
    intro k h1 h2
    match k, h1 with
    | 1, _ =>
      cases rest with
      | nil => simp at h2
      | cons w2 r2 =>
        rw [joinSpace_cons₂]
        rfl
    | k'' + 2, _ =>
      cases rest with
      | nil => simp at h2
      | cons w2 r2 =>
        rw [joinSpace_cons₂, ih (k'' + 1) (by omega) (by simp at h2 ⊢; omega)]
        rw [show (w :: w2 :: r2).take (k'' + 2) = w :: (w2 :: r2).take (k'' + 1) from rfl]
        rw [show (w :: w2 :: r2).drop (k'' + 2) = (w2 :: r2).drop (k'' + 1) from rfl]
        rw [show (w2 :: r2).take (k'' + 1) = w2 :: r2.take k'' from rfl]
        rw [joinSpace_cons₂]
        simp

theorem greedy_pairs : ∀ (rest : List Str) (cl : Nat),
    (∀ w ∈ rest, canonWord w) → cl ≤ 45 →
    (greedyTake 45 cl (pairChunks rest) =
        (pairChunks rest, cl + totalLen (pairChunks rest), []) ∧
      cl + totalLen (pairChunks rest) ≤ 45)
    ∨ (∃ k, k < rest.length ∧
        greedyTake 45 cl (pairChunks rest) =
          (pairChunks (rest.take k), cl + totalLen (pairChunks (rest.take k)),
            pairChunks (rest.drop k)) ∧
        cl + totalLen (pairChunks (rest.take k)) ≤ 45)
    ∨ (∃ k w2 r2, rest.drop k = w2 :: r2 ∧
        greedyTake 45 cl (pairChunks rest) =
          (pairChunks (rest.take k) ++ [[' ']],
            cl + totalLen (pairChunks (rest.take k)) + 1,
            w2 :: pairChunks r2) ∧
        cl + totalLen (pairChunks (rest.take k)) + 1 ≤ 45) := by
  intro rest
  induction rest with
  | nil =>
    intro cl hc hcl
    left
    constructor
    · simp [pairChunks, greedyTake, totalLen]
    · simp [pairChunks, totalLen]
      omega
  | cons w rs ih =>
    intro cl hc hcl
    rw [pairChunks, greedyTake]
    by_cases hsp : cl + [' '].length ≤ 45
    · rw [if_pos hsp]
      rw [greedyTake]
      by_cases hw : cl + [' '].length + w.length ≤ 45
      · rw [if_pos hw]
        rcases ih (cl + [' '].length + w.length)
            (fun x hx => hc x (List.mem_cons_of_mem w hx)) hw with
          ⟨he, hle⟩ | ⟨k, hk, he, hle⟩ | ⟨k, w2, r2, hdk, he, hle⟩
        · left
          rw [he]
          simp only [List.length_singleton] at hle ⊢
          refine ⟨?_, by rw [totalLen_cons, totalLen_cons]; simp; omega⟩
          simp only [Prod.mk.injEq]
          refine ⟨by trivial, ?_, by trivial⟩
          rw [totalLen_cons, totalLen_cons]
          simp
          omega
        · right; left
          refine ⟨k + 1, by simp; omega, ?_, ?_⟩
          · rw [he]
            simp only [Prod.mk.injEq]
            rw [show (w :: rs).take (k + 1) = w :: rs.take k from rfl, pairChunks,
              totalLen_cons, totalLen_cons,
              show (w :: rs).drop (k + 1) = rs.drop k from rfl]
            refine ⟨by trivial, ?_, by trivial⟩
            simp
            omega
          · rw [show (w :: rs).take (k + 1) = w :: rs.take k from rfl, pairChunks,
              totalLen_cons, totalLen_cons]
            simp at hle ⊢
            omega
        · right; right
          refine ⟨k + 1, w2, r2, by rw [show (w :: rs).drop (k + 1) = rs.drop k from rfl,
              hdk], ?_, ?_⟩
          · rw [he]
            simp only [Prod.mk.injEq]
            rw [show (w :: rs).take (k + 1) = w :: rs.take k from rfl, pairChunks,
              totalLen_cons, totalLen_cons]
            refine ⟨by simp, ?_, by trivial⟩
            simp
            omega
          · rw [show (w :: rs).take (k + 1) = w :: rs.take k from rfl, pairChunks,
              totalLen_cons, totalLen_cons]
            simp at hle ⊢
            omega
      · rw [if_neg hw]
        right; right
        refine ⟨0, w, rs, rfl, ?_, ?_⟩
        · simp [pairChunks, totalLen, greedyTake]
        · have hsp2 : cl + 1 ≤ 45 := by simpa using hsp
          simp [pairChunks, totalLen]
          omega
    · rw [if_neg hsp]
      right; left
      refine ⟨0, by simp, ?_, ?_⟩
      · simp [pairChunks, totalLen, greedyTake]
      · simp [pairChunks, totalLen]
        omega

theorem pairChunks_eq_cons {l : List Str} (h : l ≠ []) :
    pairChunks l = [' '] :: interChunks l := by
  cases l with
  | nil => exact absurd rfl h
  | cons x t => rfl

theorem pairChunks_word_getLast : ∀ (rs : List Str) (w : Str),
    ∃ lw, lw ∈ w :: rs ∧ (w :: pairChunks rs).getLast? = some lw := by
  intro rs
  induction rs with
  | nil => intro w; exact ⟨w, by simp, rfl⟩
  | cons w2 r2 ih =>
    intro w
    obtain ⟨lw, hmem, heq⟩ := ih w2
    refine ⟨lw, List.mem_cons_of_mem w hmem, ?_⟩
    rw [pairChunks, List.getLast?_cons_cons, List.getLast?_cons_cons]
    exact heq

theorem wrapPass_canonical (b : Bool) (ws : List Str) (hne : ws ≠ [])
    (hc : ∀ w ∈ ws, canonWord w) :
    ∃ k, 1 ≤ k ∧ k ≤ ws.length ∧
      (joinSpace (ws.take k)).length ≤ 45 ∧
      ((k = ws.length ∧ wrapPass 45 b (interChunks ws) = (some (joinSpace ws), [])) ∨
       (k < ws.length ∧
         (wrapPass 45 b (interChunks ws) =
            (some (joinSpace (ws.take k)), interChunks (ws.drop k)) ∨
          wrapPass 45 b (interChunks ws) =
            (some (joinSpace (ws.take k)), [' '] :: interChunks (ws.drop k))))) := by
  cases ws with
  | nil => exact absurd rfl hne
  | cons w rs =>
    obtain ⟨hwne, hwlen, hwch⟩ := hc w (List.mem_cons_self w rs)
    have hstrip : stripEmpty w = false :=
      stripEmpty_word hwne (fun c hc2 => (hwch c hc2).1)
    have hg0 : greedyTake 45 0 (w :: pairChunks rs) =
        (w :: (greedyTake 45 w.length (pairChunks rs)).1,
         (greedyTake 45 w.length (pairChunks rs)).2.1,
         (greedyTake 45 w.length (pairChunks rs)).2.2) := by
      rw [greedyTake, if_pos (by omega)]
      simp
    rcases greedy_pairs rs w.length
        (fun x hx => hc x (List.mem_cons_of_mem w hx)) hwlen with
      ⟨he, hle⟩ | ⟨k, hk, he, hle⟩ | ⟨k, w2, r2, hdk, he, hle⟩
    · -- the whole list fits on one line
      refine ⟨(w :: rs).length, by simp, le_refl _, ?_, Or.inl ⟨rfl, ?_⟩⟩
      · rw [List.take_length, ← flatten_interChunks, length_flatten_eq_totalLen,
          interChunks, totalLen_cons]
        omega
      · obtain ⟨lw, hlmem, hlast⟩ := pairChunks_word_getLast rs w
        obtain ⟨hlne, -, hlch⟩ := hc lw hlmem
        have hbridge : w ++ (pairChunks rs).flatten = joinSpace (w :: rs) := by
          have hfi := flatten_interChunks (w :: rs)
          rw [interChunks, List.flatten_cons] at hfi
          exact hfi
        rw [wrapPass.eq_def]
        simp [interChunks, hstrip, hg0, he, hlast,
          stripEmpty_word hlne (fun c hc2 => (hlch c hc2).1), hbridge, hwne]
    · -- stopped right before a space chunk
      have hdk : rs.drop k ≠ [] := by
        intro hnil
        have := congrArg List.length hnil
        simp at this
        omega
      refine ⟨k + 1, by omega, by simp; omega, ?_, Or.inr ⟨by simp; omega, Or.inr ?_⟩⟩
      · rw [show (w :: rs).take (k + 1) = w :: rs.take k from rfl,
          ← flatten_interChunks, length_flatten_eq_totalLen, interChunks, totalLen_cons]
        omega
      · obtain ⟨lw, hlmem, hlast⟩ := pairChunks_word_getLast (rs.take k) w
        have hlmem2 : lw ∈ w :: rs := by
          rcases List.mem_cons.1 hlmem with h1 | h1
          · rw [h1]; exact List.mem_cons_self w rs
          · exact List.mem_cons_of_mem w (List.mem_of_mem_take h1)
        obtain ⟨hlne, -, hlch⟩ := hc lw hlmem2
        have hbridge : w ++ (pairChunks (rs.take k)).flatten =
            joinSpace (w :: rs.take k) := by
          have hfi := flatten_interChunks (w :: rs.take k)
          rw [interChunks, List.flatten_cons] at hfi
          exact hfi
        rw [wrapPass.eq_def]
        simp [interChunks, hstrip, hg0, he, pairChunks_eq_cons hdk, hlast,
          stripEmpty_word hlne (fun c hc2 => (hlch c hc2).1), hbridge, hwne,
          show (w :: rs).drop (k + 1) = rs.drop k from rfl,
          show (w :: rs).take (k + 1) = w :: rs.take k from rfl]
    · -- stopped right before a word chunk, with the separating space taken
      have hklen : k < rs.length := by
        by_contra hge
        rw [List.drop_of_length_le (Nat.le_of_not_lt hge)] at hdk
        exact absurd hdk (by simp)
      obtain ⟨hw2ne, hw2len, -⟩ := hc w2 (by
        have : w2 ∈ rs.drop k := by rw [hdk]; exact List.mem_cons_self w2 r2
        exact List.mem_cons_of_mem w (List.mem_of_mem_drop this))
      refine ⟨k + 1, by omega, by simp; omega, ?_, Or.inr ⟨by simp; omega, Or.inl ?_⟩⟩
      · rw [show (w :: rs).take (k + 1) = w :: rs.take k from rfl,
          ← flatten_interChunks, length_flatten_eq_totalLen, interChunks, totalLen_cons]
        omega
      · have hbridge : w ++ (pairChunks (rs.take k)).flatten =
            joinSpace (w :: rs.take k) := by
          have hfi := flatten_interChunks (w :: rs.take k)
          rw [interChunks, List.flatten_cons] at hfi
          exact hfi
        have hlast2 : (w :: (pairChunks (rs.take k) ++ [[' ']])).getLast? =
            some [' '] := by
          rw [show w :: (pairChunks (rs.take k) ++ [[' ']]) =
            (w :: pairChunks (rs.take k)) ++ [[' ']] from rfl, List.getLast?_concat]
        have hdl : (w :: (pairChunks (rs.take k) ++ [[' ']])).dropLast =
            w :: pairChunks (rs.take k) := by
          rw [show w :: (pairChunks (rs.take k) ++ [[' ']]) =
            (w :: pairChunks (rs.take k)) ++ [[' ']] from rfl, List.dropLast_concat]
        rw [wrapPass.eq_def]
        simp [interChunks, hstrip, hg0, he, hlast2, hdl,
          show stripEmpty [' '] = true from rfl,
          show ¬45 < w2.length from by omega, hbridge, hwne,
          show (w :: rs).drop (k + 1) = rs.drop k from rfl,
          show (w :: rs).take (k + 1) = w :: rs.take k from rfl, hdk]

theorem wrapPass_drop_lead {C : List Str} (hC : C ≠ [])
    (hhead : stripEmpty (C.headD []) = false) :
    wrapPass 45 true ([' '] :: C) = wrapPass 45 true C := by
  cases C with
  | nil => exact absurd rfl hC
  | cons c t =>
    rw [wrapPass.eq_def, wrapPass.eq_def]
    simp only [List.headD_cons] at hhead
    simp [show stripEmpty [' '] = true from rfl, hhead]

theorem wrapLoop_canonical : ∀ (n : Nat) (ws : List Str) (fuel : Nat) (b lead : Bool),
    (∀ w ∈ ws, canonWord w) → ws ≠ [] → ws.length ≤ n → ws.length ≤ fuel →
    (lead = true → b = true) →
    (∀ l ∈ wrapLoop 45 fuel b
        (if lead then [' '] :: interChunks ws else interChunks ws), l.length ≤ 45) ∧
    joinSpace (wrapLoop 45 fuel b
        (if lead then [' '] :: interChunks ws else interChunks ws)) = joinSpace ws := by
  intro n
  induction n with
  | zero =>
    intro ws fuel b lead hc hne hlen hfuel hbl
    exact absurd (List.length_eq_zero.1 (Nat.le_zero.1 hlen)) hne
  | succ n ih =>
    intro ws fuel b lead hc hne hlen hfuel hbl
    have hlen1 : 1 ≤ ws.length := by
      cases ws with
      | nil => exact absurd rfl hne
      | cons w rs => simp
    cases fuel with
    | zero => omega
    | succ fuel =>
      have hinterne : interChunks ws ≠ [] := by
        cases ws with
        | nil => exact absurd rfl hne
        | cons w rs => simp [interChunks]
      have hwp : wrapPass 45 b (if lead then [' '] :: interChunks ws else interChunks ws) =
          wrapPass 45 b (interChunks ws) := by
        cases lead with
        | false => rfl
        | true =>
          rw [hbl rfl]
          refine wrapPass_drop_lead hinterne ?_
          cases ws with
          | nil => exact absurd rfl hne
          | cons w rs =>
            obtain ⟨hwne, -, hwch⟩ := hc w (List.mem_cons_self w rs)
            simp only [interChunks, List.headD_cons]
            exact stripEmpty_word hwne (fun c hc2 => (hwch c hc2).1)
      obtain ⟨k, hk1, hk2, hlenk, hres⟩ := wrapPass_canonical b ws hne hc
      have hloopstep : ∀ chunks0, chunks0 ≠ [] →
          wrapLoop 45 (fuel + 1) b chunks0 =
            (match (wrapPass 45 b chunks0).1 with
             | some l => l :: wrapLoop 45 fuel true (wrapPass 45 b chunks0).2
             | none => wrapLoop 45 fuel b (wrapPass 45 b chunks0).2) := by
        intro chunks0 hch
        cases chunks0 with
        | nil => exact absurd rfl hch
        | cons c0 t0 => rw [wrapLoop]
      have hchne : (if lead then [' '] :: interChunks ws else interChunks ws) ≠ [] := by
        cases lead with
        | false => simpa using hinterne
        | true => simp
      rw [hloopstep _ hchne, hwp]
      rcases hres with ⟨hkeq, hpe⟩ | ⟨hklt, hpe | hpe⟩
      · rw [hpe]
        constructor
        · intro l hl
          simp only [List.mem_cons] at hl
          rcases hl with hl | hl
          · rw [hl]
            rw [hkeq, List.take_length] at hlenk
            exact hlenk
          · rw [show wrapLoop 45 fuel true ([] : List Str) = [] from by
              cases fuel <;> rfl] at hl
            exact absurd hl (by simp)
        · rw [show wrapLoop 45 fuel true ([] : List Str) = [] from by
            cases fuel <;> rfl]
          rfl
      · -- the remainder starts directly with a word chunk
        have hdropne : ws.drop k ≠ [] := by
          intro hnil
          have := congrArg List.length hnil
          simp at this
          omega
        have hdroplen : (ws.drop k).length ≤ n := by simp; omega
        have hdropfuel : (ws.drop k).length ≤ fuel := by simp; omega
        obtain ⟨ihlen, ihjoin⟩ := ih (ws.drop k) fuel true false
          (fun x hx => hc x (List.mem_of_mem_drop hx)) hdropne hdroplen hdropfuel
          (fun h => by simp at h)
        rw [if_neg (by simp)] at ihlen ihjoin
        rw [hpe]
        have hlines : wrapLoop 45 fuel true (interChunks (ws.drop k)) ≠ [] := by
          intro hnil
          rw [hnil] at ihjoin
          exact joinSpace_ne_nil hdropne
            (fun x hx => (hc x (List.mem_of_mem_drop hx)).1) ihjoin.symm
        constructor
        · intro l hl
          simp only [List.mem_cons] at hl
          rcases hl with hl | hl
          · rw [hl]; exact hlenk
          · exact ihlen l hl
        · cases hcase : wrapLoop 45 fuel true (interChunks (ws.drop k)) with
          | nil => exact absurd hcase hlines
          | cons l0 ls =>
            rw [hcase] at ihjoin
            rw [joinSpace_cons₂, ihjoin, ← joinSpace_take_drop ws k hk1 hklt]
      · -- the remainder starts with the separating space chunk
        have hdropne : ws.drop k ≠ [] := by
          intro hnil
          have := congrArg List.length hnil
          simp at this
          omega
        have hdroplen : (ws.drop k).length ≤ n := by simp; omega
        have hdropfuel : (ws.drop k).length ≤ fuel := by simp; omega
        obtain ⟨ihlen, ihjoin⟩ := ih (ws.drop k) fuel true true
          (fun x hx => hc x (List.mem_of_mem_drop hx)) hdropne hdroplen hdropfuel
          (fun _ => rfl)
        rw [if_pos rfl] at ihlen ihjoin
        rw [hpe]
        have hlines : wrapLoop 45 fuel true ([' '] :: interChunks (ws.drop k)) ≠ [] := by
          intro hnil
          rw [hnil] at ihjoin
          exact joinSpace_ne_nil hdropne
            (fun x hx => (hc x (List.mem_of_mem_drop hx)).1) ihjoin.symm
        constructor
        · intro l hl
          simp only [List.mem_cons] at hl
          rcases hl with hl | hl
          · rw [hl]; exact hlenk
          · exact ihlen l hl
        · cases hcase : wrapLoop 45 fuel true ([' '] :: interChunks (ws.drop k)) with
          | nil => exact absurd hcase hlines
          | cons l0 ls =>
            rw [hcase] at ihjoin
            rw [joinSpace_cons₂, ihjoin, ← joinSpace_take_drop ws k hk1 hklt]

theorem emDashAhead_cons_ne {c : Char} (l : Str) (h : ¬c = '-') :
    emDashAhead (c :: l) = false := by
  rw [emDashAhead, List.span_eq_take_drop]
  rw [List.takeWhile_cons_of_neg (by simpa using h)]
  rfl

theorem wordScan_word : ∀ (w rest revPrev acc : Str),
    (∀ c ∈ w, isPySpace c = false ∧ c ≠ '-') →
    (rest = [] ∨ ∃ r rt, rest = r :: rt ∧ isPySpace r = true) →
    wordScan revPrev acc (w ++ rest) = (acc.reverse ++ w, rest) := by
  intro w
  induction w with
  | nil =>
    intro rest revPrev acc hw hrest
    rcases hrest with rfl | ⟨r, rt, rfl, hr⟩
    · rw [List.nil_append, wordScan.eq_def]
      simp
    · rw [List.nil_append, wordScan.eq_def]
      have hrd : ¬r = '-' := fun he => by rw [he] at hr; simp [isPySpace] at hr
      dsimp only
      rw [if_neg (by simp [hrd]), if_pos hr]
      simp
  | cons c w' ih =>
    intro rest revPrev acc hw hrest
    obtain ⟨hcs, hcd⟩ := hw c (List.mem_cons_self c w')
    rw [List.cons_append, wordScan.eq_def]
    dsimp only
    rw [if_neg (by simp [hcd]), if_neg (by simp [hcs]),
      if_neg (by simp [emDashAhead_cons_ne _ hcd])]
    rw [ih rest revPrev (c :: acc) (fun x hx => hw x (List.mem_cons_of_mem c hx)) hrest]
    simp

theorem wordsepAux_word_step {c : Char} {t rest revPrev : Str} {fuel : Nat}
    (hw : ∀ x ∈ c :: t, isPySpace x = false ∧ x ≠ '-')
    (hrest : rest = [] ∨ ∃ r rt, rest = r :: rt ∧ isPySpace r = true) :
    wordsepAux (fuel + 1) revPrev ((c :: t) ++ rest) =
      (c :: t) :: wordsepAux fuel ((c :: t).reverse ++ revPrev) rest := by
  obtain ⟨hcs, hcd⟩ := hw c (List.mem_cons_self c t)
  rw [List.cons_append, wordsepAux.eq_def]
  dsimp only
  rw [if_neg (by simp [hcs]), if_neg (by simp [emDashAhead_cons_ne _ hcd])]
  have hscan := wordScan_word t rest revPrev [c]
    (fun x hx => hw x (List.mem_cons_of_mem c hx)) hrest
  simp [hscan]

theorem joinSpace_head : ∀ (w2 : Str) (r2 : List Str),
    ∃ t', joinSpace (w2 :: r2) = w2 ++ t' ∧ (t' = [] ∨ ∃ u, t' = ' ' :: u) := by
  intro w2 r2
  cases r2 with
  | nil => exact ⟨[], by simp [joinSpace], Or.inl rfl⟩
  | cons w3 r3 =>
    exact ⟨' ' :: joinSpace (w3 :: r3), by rw [joinSpace_cons₂], Or.inr ⟨_, rfl⟩⟩

theorem wordsep_canonical : ∀ (ws : List Str), (∀ w ∈ ws, canonWord w) → ws ≠ [] →
    ∀ (fuel : Nat) (revPrev : Str), (joinSpace ws).length ≤ fuel →
    wordsepAux fuel revPrev (joinSpace ws) = interChunks ws := by
  intro ws
  induction ws with
  | nil => intro hc hne; exact absurd rfl hne
  | cons w rs ih =>
    intro hc hne fuel revPrev hfuel
    obtain ⟨hwne, hwlen, hwch⟩ := hc w (List.mem_cons_self w rs)
    cases w with
    | nil => exact absurd rfl hwne
    | cons c t =>
      cases rs with
      | nil =>
        cases fuel with
        | zero =>
          rw [show joinSpace [c :: t] = c :: t from rfl] at hfuel
          simp at hfuel
        | succ fuel =>
          rw [show joinSpace [c :: t] = (c :: t) ++ [] from by simp [joinSpace]]
          rw [wordsepAux_word_step hwch (Or.inl rfl)]
          rw [show wordsepAux fuel ((c :: t).reverse ++ revPrev) [] = [] from by
            cases fuel <;> rfl]
          rfl
      | cons w2 r2 =>
        obtain ⟨hw2ne, -, hw2ch⟩ := hc w2 (by simp)
        obtain ⟨t', hJ, -⟩ := joinSpace_head w2 r2
        cases fuel with
        | zero => rw [joinSpace_cons₂] at hfuel; simp at hfuel
        | succ fuel =>
        cases fuel with
        | zero =>
          rw [joinSpace_cons₂] at hfuel
          simp at hfuel
        | succ fuel =>
          rw [joinSpace_cons₂,
            wordsepAux_word_step hwch (Or.inr ⟨' ', joinSpace (w2 :: r2), rfl, rfl⟩)]
          rw [wordsepAux.eq_def]
          dsimp only
          rw [if_pos (show isPySpace ' ' = true from rfl)]
          cases w2 with
          | nil => exact absurd rfl hw2ne
          | cons c2 t2 =>
            obtain ⟨t'', hJ2, -⟩ := joinSpace_head (c2 :: t2) r2
            have hspan : (' ' :: joinSpace ((c2 :: t2) :: r2)).span isPySpace =
                ([' '], joinSpace ((c2 :: t2) :: r2)) := by
              rw [List.span_eq_take_drop, List.takeWhile_cons_of_pos rfl, hJ2,
                List.cons_append,
                List.takeWhile_cons_of_neg (by
                  simpa using (hw2ch c2 (List.mem_cons_self c2 t2)).1),
                List.dropWhile_cons_of_pos rfl,
                List.dropWhile_cons_of_neg (by
                  simpa using (hw2ch c2 (List.mem_cons_self c2 t2)).1)]
            simp only [hspan]
            rw [ih (fun x hx => hc x (List.mem_cons_of_mem _ hx)) (by simp) fuel
              ([' '].reverse ++ ((c :: t).reverse ++ revPrev)) (by
                rw [joinSpace_cons₂] at hfuel
                simp at hfuel
                omega)]
            rfl

theorem expandtabs_no_tab : ∀ (s : Str) (col : Nat), (∀ c ∈ s, c ≠ '\t') →
    expandtabsAux 8 col s = s := by
  intro s
  induction s with
  | nil => intro col h; rfl
  | cons c t ih =>
    intro col h
    rw [expandtabsAux, if_neg (h c (List.mem_cons_self c t))]
    by_cases hnl : c = '\n' || c = '\r'
    · rw [if_pos hnl, ih 0 (fun x hx => h x (List.mem_cons_of_mem c hx))]
    · rw [if_neg hnl, ih (col + 1) (fun x hx => h x (List.mem_cons_of_mem c hx))]

theorem mem_joinSpace : ∀ {ws : List Str} {c : Char}, c ∈ joinSpace ws →
    c = ' ' ∨ ∃ w ∈ ws, c ∈ w := by
  intro ws
  induction ws with
  | nil => intro c h; exact absurd h (by simp [joinSpace])
  | cons w rest ih =>
    intro c h
    cases rest with
    | nil => exact Or.inr ⟨w, by simp, h⟩
    | cons w2 r2 =>
      rw [joinSpace_cons₂] at h
      rcases List.mem_append.1 h with h | h
      · exact Or.inr ⟨w, by simp, h⟩
      · rcases List.mem_cons.1 h with h | h
        · exact Or.inl h
        · rcases ih h with h | ⟨w', hw', hc⟩
          · exact Or.inl h
          · exact Or.inr ⟨w', List.mem_cons_of_mem w hw', hc⟩

theorem munge_canonical {ws : List Str} (hc : ∀ w ∈ ws, canonWord w) :
    munge_whitespace (joinSpace ws) = joinSpace ws := by
  have hch : ∀ c ∈ joinSpace ws, c = ' ' ∨ isPySpace c = false := by
    intro c h
    rcases mem_joinSpace h with h | ⟨w, hw, hcw⟩
    · exact Or.inl h
    · exact Or.inr ((hc w hw).2.2 c hcw).1
  rw [munge_whitespace, expandtabs_no_tab _ 0 (by
    intro c h
    rcases hch c h with h2 | h2
    · rw [h2]; decide
    · intro he; rw [he] at h2; simp [isPySpace] at h2)]
  have : ∀ (l : Str), (∀ c ∈ l, c = ' ' ∨ isPySpace c = false) →
      l.map (fun c => if isPySpace c then ' ' else c) = l := by
    intro l
    induction l with
    | nil => intro h2; rfl
    | cons c t ih2 =>
      intro h2
      rw [List.map_cons, ih2 (fun x hx => h2 x (List.mem_cons_of_mem c hx))]
      rcases h2 c (List.mem_cons_self c t) with h3 | h3
      · rw [h3]; rfl
      · rw [if_neg (by simp [h3])]
  exact this _ hch

theorem takeWhile_append_all {p : Char → Bool} : ∀ {w X : Str},
    (∀ c ∈ w, p c = true) → (w ++ X).takeWhile p = w ++ X.takeWhile p := by
  intro w
  induction w with
  | nil => intro X h; rfl
  | cons c t ih =>
    intro X h
    rw [List.cons_append, List.takeWhile_cons_of_pos (h c (List.mem_cons_self c t)),
      ih (fun x hx => h x (List.mem_cons_of_mem c hx))]
    rfl

theorem pySplit_canonical : ∀ (n : Nat) (ws : List Str) (fuel : Nat) (lead : Str),
    (∀ w ∈ ws, canonWord w) → ws ≠ [] → ws.length ≤ n →
    (lead = [] ∨ lead = [' ']) →
    (lead ++ joinSpace ws).length ≤ fuel →
    pySplitWhitespaceAux fuel (lead ++ joinSpace ws) = ws := by
  intro n
  induction n with
  | zero =>
    intro ws fuel lead hc hne hlen
    exact absurd (List.length_eq_zero.1 (Nat.le_zero.1 hlen)) hne
  | succ n ih =>
    intro ws fuel lead hc hne hlen hlead hfuel
    cases ws with
    | nil => exact absurd rfl hne
    | cons w rs =>
      obtain ⟨hwne, -, hwch⟩ := hc w (List.mem_cons_self w rs)
      cases w with
      | nil => exact absurd rfl hwne
      | cons cw tw =>
        obtain ⟨t', hJ, ht'⟩ := joinSpace_head (cw :: tw) rs
        have hfuel1 : 1 ≤ fuel := by
          rcases hlead with rfl | rfl <;> rw [hJ] at hfuel <;> simp at hfuel <;> omega
        obtain ⟨fuel, rfl⟩ : ∃ f, fuel = f + 1 :=
          ⟨fuel - 1, by omega⟩
        rw [pySplitWhitespaceAux]
        have hdrop : (lead ++ joinSpace ((cw :: tw) :: rs)).dropWhile isPySpace =
            joinSpace ((cw :: tw) :: rs) := by
          rcases hlead with rfl | rfl
          · rw [List.nil_append, hJ, List.cons_append, List.dropWhile_cons_of_neg
              (by simpa using (hwch cw (List.mem_cons_self cw tw)).1), ← List.cons_append,
              ← hJ]
          · rw [List.cons_append, List.nil_append, List.dropWhile_cons_of_pos rfl, hJ,
              List.cons_append, List.dropWhile_cons_of_neg
              (by simpa using (hwch cw (List.mem_cons_self cw tw)).1), ← List.cons_append,
              ← hJ]
        rw [hdrop, hJ, List.cons_append]
        have hspan : ((cw :: (tw ++ t')).span fun x => !isPySpace x) =
            (cw :: tw, t') := by
          rw [List.span_eq_take_drop]
          rw [show cw :: (tw ++ t') = (cw :: tw) ++ t' from rfl]
          rw [takeWhile_append_all (fun c hc2 => by simp [(hwch c hc2).1])]
          have hdw : ∀ (l X : Str), (∀ c ∈ l, isPySpace c = false) →
              ((l ++ X).dropWhile fun x => !isPySpace x) =
                X.dropWhile fun x => !isPySpace x := by
            intro l
            induction l with
            | nil => intro X h; rfl
            | cons a b ihd =>
              intro X h
              rw [List.cons_append, List.dropWhile_cons_of_pos
                (by simp [h a (List.mem_cons_self a b)]),
                ihd X (fun x hx => h x (List.mem_cons_of_mem a hx))]
          rw [hdw _ _ (fun c hc2 => (hwch c hc2).1)]
          rcases ht' with rfl | ⟨u, rfl⟩
          · simp
          · rw [List.takeWhile_cons_of_neg (by decide),
              List.dropWhile_cons_of_neg (by decide)]
            simp
        dsimp only
        rw [hspan]
        dsimp only
        rcases ht' with rfl | ⟨u, rfl⟩
        · have hrs : rs = [] := by
            cases rs with
            | nil => rfl
            | cons w2 r2 =>
              exfalso
              have hJl := congrArg List.length hJ
              rw [joinSpace_cons₂] at hJl
              simp at hJl
          rw [hrs]
          rw [show pySplitWhitespaceAux fuel [] = [] from by cases fuel <;> rfl]
        · have hrsne : rs ≠ [] := by
            intro hnil
            rw [hnil] at hJ
            have hJl := congrArg List.length hJ
            simp [joinSpace] at hJl
          have hujoin : u = joinSpace rs := by
            cases rs with
            | nil => exact absurd rfl hrsne
            | cons w2 r2 =>
              have h2 : (cw :: tw) ++ ' ' :: joinSpace (w2 :: r2) =
                  (cw :: tw) ++ ' ' :: u := by
                rw [← joinSpace_cons₂, hJ]
              have h3 := List.append_cancel_left h2
              rw [List.cons.injEq] at h3
              exact h3.2.symm
          rw [show (' ' :: u : Str) = [' '] ++ u from rfl, hujoin,
            ih rs fuel [' '] (fun x hx => hc x (List.mem_cons_of_mem _ hx)) hrsne
              (by simp at hlen ⊢; omega) (Or.inr rfl)
              (by
                have h4 := hfuel
                rw [hJ, hujoin] at h4
                rcases hlead with rfl | rfl <;> simp at h4 ⊢ <;> omega)]

theorem totalLen_interChunks_ge : ∀ (ws : List Str), (∀ w ∈ ws, w ≠ []) →
    ws.length ≤ totalLen (interChunks ws) := by
  intro ws
  induction ws with
  | nil => intro h; simp [interChunks, totalLen]
  | cons w rs ih =>
    intro h
    have hw : 1 ≤ w.length := by
      have := h w (List.mem_cons_self w rs)
      cases w with
      | nil => exact absurd rfl this
      | cons a b => simp
    cases rs with
    | nil =>
      rw [interChunks, pairChunks, totalLen_cons]
      simp [totalLen]
      omega
    | cons w2 r2 =>
      have hih := ih (fun x hx => h x (List.mem_cons_of_mem w hx))
      rw [interChunks, pairChunks_eq_cons (by simp), totalLen_cons, totalLen_cons]
      rw [interChunks] at *
      simp only [List.length_cons] at *
      omega

/-- C6 (counterexample): the reason with the five characters a, space,
space, b contains no parenthesized group and wraps to the single unchanged
line a-space-space-b, whose single-space join differs from the
whitespace-normalized original a-space-b: internal runs of whitespace are
preserved inside a wrapped line, so the joined wrap does not reconstruct
the normalized reason. -/
theorem wrap_reconstruction_cex :
    reasonMatch "a  b".data = none ∧
    textwrap_wrap 45 "a  b".data = ["a  b".data] ∧
    normalizeWs "a  b".data = "a b".data ∧
    joinSpace (textwrap_wrap 45 "a  b".data) ≠ normalizeWs "a  b".data := by decide

/-- C6 (amended): for every reason that is a nonempty singly-space-joined
list of words, each word nonempty, of at most 45 characters and free of
whitespace and hyphen characters, the 45-column wrap yields lines of at
most 45 characters whose single-space join reconstructs the reason (which
is its own whitespace normalization); when such a reason has no breakdown
match the renderer draws exactly the wrapped lines at x 260, starting at
y 355, one 20-pixel line height apart. -/
theorem wrap_reconstruction_amended (font : PILFont) (ws : List Str)
    (hne : ws ≠ []) (hcanon : ∀ w ∈ ws, canonWord w) :
    (∀ l ∈ textwrap_wrap 45 (joinSpace ws), l.length ≤ 45) ∧
    joinSpace (textwrap_wrap 45 (joinSpace ws)) = joinSpace ws ∧
    normalizeWs (joinSpace ws) = joinSpace ws ∧
    (reasonMatch (joinSpace ws) = none →
      reasonOps font (joinSpace ws) =
        (textwrap_wrap 45 (joinSpace ws)).enum.map fun p =>
          { pos := (260, 355 + p.1 * 20), text := p.2, fill := black, font := font }) := by
  have hsplit : wordsep_split (joinSpace ws) = interChunks ws :=
    wordsep_canonical ws hcanon hne _ [] (le_refl _)
  have hwrap : textwrap_wrap 45 (joinSpace ws) =
      wrapLoop 45 (totalLen (interChunks ws) + (interChunks ws).length + 1) false
        (interChunks ws) := by
    rw [textwrap_wrap, munge_canonical hcanon, hsplit]
  have hfuel : ws.length ≤ totalLen (interChunks ws) + (interChunks ws).length + 1 := by
    have := totalLen_interChunks_ge ws (fun w hw => (hcanon w hw).1)
    omega
  have hmain := wrapLoop_canonical ws.length ws
    (totalLen (interChunks ws) + (interChunks ws).length + 1) false false hcanon hne
    (le_refl _) hfuel (fun h => by simp at h)
  rw [if_neg (by simp)] at hmain
  rw [hwrap]
  refine ⟨hmain.1, hmain.2, ?_, fun hm => ?_⟩
  · have hps := pySplit_canonical ws.length ws (joinSpace ws).length []
      hcanon hne (le_refl _) (Or.inl rfl) (by simp)
    rw [List.nil_append] at hps
    rw [normalizeWs, pySplitWhitespace, hps]
  · rw [reasonOps, hm, hwrap]

/-- Witness for the amended C6 at a concrete two-word reason. -/
theorem wrap_reconstruction_amended_witness :
    (∀ l ∈ textwrap_wrap 45 (joinSpace ["hi".data, "yo".data]), l.length ≤ 45) ∧
    joinSpace (textwrap_wrap 45 (joinSpace ["hi".data, "yo".data])) =
      joinSpace ["hi".data, "yo".data] ∧
    normalizeWs (joinSpace ["hi".data, "yo".data]) = joinSpace ["hi".data, "yo".data] ∧
    (reasonMatch (joinSpace ["hi".data, "yo".data]) = none →
      reasonOps .dflt (joinSpace ["hi".data, "yo".data]) =
        (textwrap_wrap 45 (joinSpace ["hi".data, "yo".data])).enum.map fun p =>
          { pos := (260, 355 + p.1 * 20), text := p.2, fill := black,
            font := PILFont.dflt }) :=
  wrap_reconstruction_amended .dflt ["hi".data, "yo".data] (by decide)
    (by
      intro w hw
      rcases List.mem_cons.1 hw with h | h
      · rw [h]
        exact ⟨by decide, by decide, by decide⟩
      · rcases List.mem_cons.1 h with h2 | h2
        · rw [h2]
          exact ⟨by decide, by decide, by decide⟩
        · exact absurd h2 (by simp))
